import Mathlib

/-!
# Verification of `flot/versionno.py` (PEP 440 version normalization)

This file shallowly embeds the module `src/flot/versionno.py`:

* the regular expression `VERSION_PERMISSIVE` is embedded as a deterministic
  parser over `List Char` (`VERSION_PERMISSIVE_core` / `VERSION_PERMISSIVE_match`);
* the table `pre_spellings` and the function `normalize_version` are embedded
  directly, field by field.

The Python regex engine uses ordered alternation with backtracking.  The
embedding determinizes it; each determinization is justified where it is made
by a disjointness argument on the characters that can follow: whenever the
deterministic parser commits to a branch (a greedy repetition, an optional
separator, a longest spelling), every alternative branch of the regex leads the
overall anchored match into a dead end on the very next character, so the
backtracking engine and the deterministic parser accept exactly the same
strings with the same captures.

Python's `str.lower` is embedded as ASCII case mapping and the `\s` class as
the six ASCII whitespace characters; the grammar itself only involves ASCII.
The environment variable `FLIT_ALLOW_INVALID` read by the source is embedded
as the explicit boolean argument `allow_invalid`, and the message of the
raised `InvalidVersion` exception — `"Version number {!r} does not match
PEP 440 rules".format(orig_version)` — is embedded as the `Except.error`
payload carrying `orig_version`, the variable part of that constant template.
-/

namespace Flot

/-- The regex character class `[0-9]`. -/
def isDigit (c : Char) : Bool :=
  c == '0' || c == '1' || c == '2' || c == '3' || c == '4' ||
  c == '5' || c == '6' || c == '7' || c == '8' || c == '9'

/-- The regex character class `[-_\.]` (the separators tolerated by the
permissive grammar). -/
def isSep (c : Char) : Bool :=
  c == '-' || c == '_' || c == '.'

/-- The regex class `\s` (ASCII): space, tab, newline, carriage return,
vertical tab, form feed. -/
def isWs (c : Char) : Bool :=
  c == ' ' || c == '\t' || c == '\n' || c == '\r' || c == '\x0b' || c == '\x0c'

/-- The regex character class `[a-z0-9]` used by the local-version label. -/
def isLowerAlnum (c : Char) : Bool :=
  (97 ≤ c.toNat && c.toNat ≤ 122) || isDigit c

/-- ASCII case mapping of a single character, embedding what `str.lower`
does on the ASCII range. -/
def lowerChar (c : Char) : Char :=
  if 65 ≤ c.toNat && c.toNat ≤ 90 then Char.ofNat (c.toNat + 32) else c

/-- Embedding of `str.lower` (`version = orig_version.lower()`). -/
def lowerStr (s : String) : String :=
  String.mk (s.data.map lowerChar)

/-- Numeric value of a decimal digit character. -/
def charVal (c : Char) : Nat :=
  if c == '0' then 0 else if c == '1' then 1 else if c == '2' then 2 else
  if c == '3' then 3 else if c == '4' then 4 else if c == '5' then 5 else
  if c == '6' then 6 else if c == '7' then 7 else if c == '8' then 8 else
  if c == '9' then 9 else 0

/-- Embedding of Python `int` on a (nonempty, all-digit) string, as used in
`str(int(rp))` etc. -/
def strInt (ds : List Char) : Nat :=
  ds.foldl (fun n c => 10 * n + charVal c) 0

/-- Structural helper for `natStr`: renders the decimal digits of `n`,
most significant first, for any fuel at least `n`. -/
def natStrF : Nat → Nat → List Char
  | 0, _ => []
  | _ + 1, 0 => []
  | fuel + 1, n + 1 =>
      natStrF fuel ((n + 1) / 10) ++ [Nat.digitChar ((n + 1) % 10)]

/-- Embedding of Python `str` on a non-negative integer: the canonical decimal
rendering, no leading zeros, `"0"` for zero. -/
def natStr (n : Nat) : List Char :=
  if n = 0 then ['0'] else natStrF n n

/-- A digit string with its leading zeros stripped (all-zero strings collapse
to `"0"`).  Used to state what `str(int(·))` does to matched digit groups. -/
def stripZeros (ds : List Char) : List Char :=
  if ds.dropWhile (· == '0') = [] then ['0'] else ds.dropWhile (· == '0')

/-- Embedding of `"." .join(···)`. -/
def joinDots : List (List Char) → List Char
  | [] => []
  | [x] => x
  | x :: y :: xs => x ++ '.' :: joinDots (y :: xs)

/-- Embedding of Python `str.split(".")` (on the character list). -/
def splitOnDot : List Char → List (List Char)
  | [] => [[]]
  | c :: rest =>
      if c = '.' then [] :: splitOnDot rest
      else
        match splitOnDot rest with
        | [] => [[c]]
        | s :: ss => (c :: s) :: ss

/-- One character of `local.replace("-", ".").replace("_", ".")`. -/
def replaceChar (c : Char) : Char :=
  if c = '-' || c = '_' then '.' else c

/-- Embedding of Python `str.isdigit` (ASCII): nonempty and all digits. -/
def pyIsDigit (l : List Char) : Bool :=
  !l.isEmpty && l.all isDigit

/-- Literal-prefix test, matching on the literal first so that it reduces
definitionally when the literal is concrete and the input tail is abstract. -/
def startsWith : List Char → List Char → Bool
  | [], _ => true
  | _ :: _, [] => false
  | a :: as, b :: bs => a == b && startsWith as bs

/-- Embedding of the Python expression `"0" if n is None else str(int(n))`
applied to an optional matched digit group. -/
def canonN (n : Option (List Char)) : List Char :=
  match n with
  | none => ['0']
  | some d => natStr (strInt d)

/-! ## The Grammar Matcher: embedding of the regex `VERSION_PERMISSIVE`

The named captures of a successful match.  Digit groups are kept as the
matched character lists (the Python match object also yields strings);
`release` is kept as the list of its dot-separated components (the Python
code recovers exactly this list by `release.split(".")`, since the components
contain no dots); `localv` is the raw matched local label (group `local`). -/
structure Fields where
  epoch : Option (List Char)
  release : List (List Char)
  pre_l : Option (List Char)
  pre_n : Option (List Char)
  post_n1 : Option (List Char)
  post_l : Option (List Char)
  post_n2 : Option (List Char)
  dev_l : Bool
  dev_n : Option (List Char)
  localv : Option (List Char)
  deriving Repr, DecidableEq

/-- `\s*`: leading whitespace. -/
def eatWs (s : List Char) : List Char := s.dropWhile isWs

/-- `v?`: the optional leading `v`.  Committing to it is faithful: when the
head is `v` and the regex declines the option, the mandatory release digits
must match at that `v`, which is impossible. -/
def eatV : List Char → List Char
  | 'v' :: r => r
  | s => s

/-- One optional separator `[-_\.]?`.  Committing to it is faithful: at each
use, if consuming a present separator leads to failure, declining it makes the
following mandatory piece (a spelling or the end anchor) face the separator
character, which it can never consume. -/
def eatSep : List Char → List Char
  | c :: r => if isSep c then r else c :: r
  | [] => []

/-- `(?:(?P<epoch>[0-9]+)!)?`: greedy digits followed by `!`.  Maximality of
the digit run is faithful (a shorter run faces a digit where `!` is required);
committing when `digits !` is present is faithful because no other branch of
the anchored regex can consume a `!`. -/
def parseEpoch (s : List Char) : Option (List Char) × List Char :=
  let d := s.takeWhile isDigit
  let r := s.dropWhile isDigit
  match r with
  | '!' :: r2 => if d.isEmpty then (none, s) else (some d, r2)
  | _ => (none, s)

/-- The tail `(?:\.[0-9]+)*` of the release segment: repeatedly a dot followed
by a maximal digit run.  Greediness is faithful: stopping earlier leaves a
`.`‑digit pair that no later branch (pre/post/dev start with a separator plus
a letter, or `-`‑digits; local starts with `+`) can consume.  The `fuel`
argument makes the recursion structural; it is called with the input length. -/
def relTailF : Nat → List Char → List (List Char) × List Char
  | 0, s => ([], s)
  | fuel + 1, s =>
      match s with
      | '.' :: c :: r =>
          if isDigit c then
            let d := (c :: r).takeWhile isDigit
            let r2 := (c :: r).dropWhile isDigit
            let (ds, r3) := relTailF fuel r2
            (d :: ds, r3)
          else ([], '.' :: c :: r)
      | s => ([], s)

/-- `(?P<release>[0-9]+(?:\.[0-9]+)*)`: the mandatory release segment. -/
def parseRelease (s : List Char) : Option (List (List Char) × List Char) :=
  let d := s.takeWhile isDigit
  let r := s.dropWhile isDigit
  if d.isEmpty then none
  else
    let (ds, r2) := relTailF r.length r
    some (d :: ds, r2)

/-- The alternation `(a|b|c|rc|alpha|beta|pre|preview)` of group `pre_l`.
The Python engine tries the spellings in the written order and backtracks on
failure of the continuation; this is equivalent to longest-spelling-first
because the spellings sharing a first letter form prefix chains
(`a`/`alpha`, `b`/`beta`, `pre`/`preview`) and committing to the shorter one
leaves a letter (`l`, `e`, `v`) that no continuation of the anchored regex
can consume. -/
def tagAt (s : List Char) : Option (List Char × List Char) :=
  if startsWith ['p','r','e','v','i','e','w'] s then some (['p','r','e','v','i','e','w'], s.drop 7)
  else if startsWith ['a','l','p','h','a'] s then some (['a','l','p','h','a'], s.drop 5)
  else if startsWith ['b','e','t','a'] s then some (['b','e','t','a'], s.drop 4)
  else if startsWith ['p','r','e'] s then some (['p','r','e'], s.drop 3)
  else if startsWith ['r','c'] s then some (['r','c'], s.drop 2)
  else if startsWith ['a'] s then some (['a'], s.drop 1)
  else if startsWith ['b'] s then some (['b'], s.drop 1)
  else if startsWith ['c'] s then some (['c'], s.drop 1)
  else none

/-- `(?P<pre>[-_\.]?(?P<pre_l>···)[-_\.]?(?P<pre_n>[0-9]+)?)?`. -/
def parsePre (s : List Char) : (Option (List Char) × Option (List Char)) × List Char :=
  let s1 := eatSep s
  match tagAt s1 with
  | none => ((none, none), s)
  | some (tag, s2) =>
      let s3 := eatSep s2
      let n := s3.takeWhile isDigit
      let s4 := s3.dropWhile isDigit
      if n.isEmpty then ((some tag, none), s4) else ((some tag, some n), s4)

/-- The alternation `(post|rev|r)` of group `post_l`; the written order is
already longest-first on the prefix chain `r`/`rev`. -/
def postTagAt (s : List Char) : Option (List Char × List Char) :=
  if startsWith ['p','o','s','t'] s then some (['p','o','s','t'], s.drop 4)
  else if startsWith ['r','e','v'] s then some (['r','e','v'], s.drop 3)
  else if startsWith ['r'] s then some (['r'], s.drop 1)
  else none

/-- The second post-release alternative `[-_\.]?(?P<post_l>post|rev|r)[-_\.]?(?P<post_n2>[0-9]+)?`. -/
def parsePostTag (s : List Char) :
    (Option (List Char) × Option (List Char) × Option (List Char)) × List Char :=
  let s1 := eatSep s
  match postTagAt s1 with
  | none => ((none, none, none), s)
  | some (tag, s2) =>
      let s3 := eatSep s2
      let n := s3.takeWhile isDigit
      let s4 := s3.dropWhile isDigit
      if n.isEmpty then ((none, some tag, none), s4) else ((none, some tag, some n), s4)

/-- `(?P<post>(?:-(?P<post_n1>[0-9]+))|(?:···post_l···))?`.  The first
alternative is tried first, as in the regex; when it matches, committing to it
is faithful because the second alternative needs a spelling letter where the
first one found `-` then a digit. -/
def parsePost (s : List Char) :
    (Option (List Char) × Option (List Char) × Option (List Char)) × List Char :=
  match s with
  | '-' :: r =>
      let d := r.takeWhile isDigit
      if d.isEmpty then parsePostTag ('-' :: r)
      else ((some d, none, none), r.dropWhile isDigit)
  | s => parsePostTag s

/-- `(?P<dev>[-_\.]?(?P<dev_l>dev)[-_\.]?(?P<dev_n>[0-9]+)?)?`. -/
def parseDev (s : List Char) : (Bool × Option (List Char)) × List Char :=
  let s1 := eatSep s
  if startsWith ['d','e','v'] s1 then
    let s2 := s1.drop 3
    let s3 := eatSep s2
    let n := s3.takeWhile isDigit
    let s4 := s3.dropWhile isDigit
    if n.isEmpty then ((true, none), s4) else ((true, some n), s4)
  else ((false, none), s)

/-- The tail `(?:[-_\.][a-z0-9]+)*` of the local version label; returns the
raw consumed text (separators included, as captured by group `local`) and the
remainder.  Greedy iteration is faithful: stopping earlier leaves a separator
or an alphanumeric character that the end anchor `\s*$` cannot consume. -/
def localTailF : Nat → List Char → List Char × List Char
  | 0, s => ([], s)
  | fuel + 1, s =>
      match s with
      | c :: d :: r =>
          if isSep c && isLowerAlnum d then
            let run := (d :: r).takeWhile isLowerAlnum
            let r2 := (d :: r).dropWhile isLowerAlnum
            let (more, r3) := localTailF fuel r2
            (c :: (run ++ more), r3)
          else ([], c :: d :: r)
      | s => ([], s)

/-- `(?:\+(?P<local>[a-z0-9]+(?:[-_\.][a-z0-9]+)*))?`.  When a `+` is present
but no alphanumeric run follows, the group as a whole fails and the unconsumed
`+` then makes the anchored match fail, which the final whitespace check below
reproduces. -/
def parseLocal (s : List Char) : Option (List Char) × List Char :=
  match s with
  | '+' :: r =>
      let run := r.takeWhile isLowerAlnum
      if run.isEmpty then (none, '+' :: r)
      else
        let r1 := r.dropWhile isLowerAlnum
        let (more, r2) := localTailF r1.length r1
        (some (run ++ more), r2)
  | s => (none, s)

/-- The body of `VERSION_PERMISSIVE`: all groups in order, returning the
captures and the unconsumed remainder (before the end anchor `\s*$`). -/
def VERSION_PERMISSIVE_core (s : List Char) : Option (Fields × List Char) :=
  let s0 := eatWs s
  let s1 := eatV s0
  let (epoch, s2) := parseEpoch s1
  match parseRelease s2 with
  | none => none
  | some (rel, s3) =>
      let ((pl, pn), s4) := parsePre s3
      let ((pn1, pol, pn2), s5) := parsePost s4
      let ((dl, dn), s6) := parseDev s5
      let (loc, s7) := parseLocal s6
      some ({ epoch := epoch, release := rel, pre_l := pl, pre_n := pn,
              post_n1 := pn1, post_l := pol, post_n2 := pn2,
              dev_l := dl, dev_n := dn, localv := loc }, s7)

/-- Embedding of `VERSION_PERMISSIVE.match(version)`: the match is anchored —
after the grammar body only whitespace may remain (`\s*$`). -/
def VERSION_PERMISSIVE_match (s : List Char) : Option Fields :=
  match VERSION_PERMISSIVE_core s with
  | none => none
  | some (f, rest) => if (rest.dropWhile isWs).isEmpty then some f else none

/-! ## The Canonicalizer: embedding of `normalize_version` -/

/-- Embedding of the dict `pre_spellings`.  (A key outside the eight spellings
would be a `KeyError` in Python; the grammar only produces these eight.) -/
def pre_spellings (t : List Char) : List Char :=
  if t = ['a'] then ['a']
  else if t = ['a','l','p','h','a'] then ['a']
  else if t = ['b'] then ['b']
  else if t = ['b','e','t','a'] then ['b']
  else if t = ['r','c'] then ['r','c']
  else if t = ['c'] then ['r','c']
  else if t = ['p','r','e'] then ['r','c']
  else if t = ['p','r','e','v','i','e','w'] then ['r','c']
  else []

/-- `add(str(int(epoch)) + "!")` when the epoch group matched. -/
def epochComp (f : Fields) : List (List Char) :=
  match f.epoch with
  | some e => [natStr (strInt e) ++ ['!']]
  | none => []

/-- `add(".".join(str(int(rp)) for rp in release.split(".")))`. -/
def releaseComp (f : Fields) : List Char :=
  joinDots (f.release.map fun rp => natStr (strInt rp))

/-- The pre-release component: spelling mapped through `pre_spellings`,
number zero-defaulted, concatenated with no separator. -/
def preComp (f : Fields) : List (List Char) :=
  match f.pre_l with
  | some pl => [pre_spellings pl ++ canonN f.pre_n]
  | none => []

/-- The post-release component: `.post` plus the integer, from either surface
form (the code applies `str(int(·))` once more to the already-canonical
`post_n` string in the second branch). -/
def postComp (f : Fields) : List (List Char) :=
  match f.post_n1 with
  | some n1 => [['.','p','o','s','t'] ++ natStr (strInt n1)]
  | none =>
      match f.post_l with
      | some _ => [['.','p','o','s','t'] ++ natStr (strInt (canonN f.post_n2))]
      | none => []

/-- The dev-release component: `.dev` plus the zero-defaulted integer. -/
def devComp (f : Fields) : List (List Char) :=
  if f.dev_l then [['.','d','e','v'] ++ canonN f.dev_n] else []

/-- The segment list `[str(int(c)) if c.isdigit() else c for c in
local.replace("-", ".").replace("_", ".").split(".")]`. -/
def processedSegs (raw : List Char) : List (List Char) :=
  (splitOnDot (raw.map replaceChar)).map fun c => if pyIsDigit c then natStr (strInt c) else c

/-- The local version component: separators unified to `.`, all-digit
segments passed through `str(int(·))`, prefixed with `+`. -/
def localComp (f : Fields) : List (List Char) :=
  match f.localv with
  | some l => ['+' :: joinDots (processedSegs l)]
  | none => []

/-- The list `components` built by `normalize_version` after a match. -/
def componentsOf (f : Fields) : List (List Char) :=
  epochComp f ++ [releaseComp f] ++ preComp f ++ postComp f ++ devComp f ++ localComp f

/-- Embedding of `normalize_version`.  `allow_invalid` embeds the environment
test `os.environ.get("FLIT_ALLOW_INVALID")`; the error payload carries
`orig_version`, the variable part of the `InvalidVersion` message. -/
def normalize_version (allow_invalid : Bool) (orig_version : String) : Except String String :=
  let version := lowerStr orig_version
  match VERSION_PERMISSIVE_match version.data with
  | none =>
      if allow_invalid then Except.ok version
      else Except.error orig_version
  | some m => Except.ok (String.mk (componentsOf m).flatten)

/-! ## Canonical field values

`CFields` records the value content of an already-canonical version string;
`renderC` renders it exactly as the Canonicalizer would, and `fieldsC` gives
the captures the Grammar Matcher produces on that rendering.  These are the
devices for the fixed-point/idempotence proof, not part of the embedding. -/
structure CFields where
  epoch : Option Nat
  release : List Nat
  pre : Option (List Char × Nat)
  post : Option Nat
  dev : Option Nat
  localSegs : Option (List (List Char))

/-- The rendered local segment of a canonical string (with its `+`). -/
def sLoc (cf : CFields) : List Char :=
  match cf.localSegs with
  | some segs => '+' :: joinDots segs
  | none => []

/-- The rendered canonical string from the dev segment on. -/
def sDev (cf : CFields) : List Char :=
  (match cf.dev with
   | some n => ['.','d','e','v'] ++ natStr n
   | none => []) ++ sLoc cf

/-- The rendered canonical string from the post segment on. -/
def sPost (cf : CFields) : List Char :=
  (match cf.post with
   | some n => ['.','p','o','s','t'] ++ natStr n
   | none => []) ++ sDev cf

/-- The rendered canonical string from the pre segment on. -/
def sPre (cf : CFields) : List Char :=
  (match cf.pre with
   | some (t, n) => t ++ natStr n
   | none => []) ++ sPost cf

/-- The rendered canonical string from the (mandatory) release segment on. -/
def sRel (cf : CFields) : List Char :=
  joinDots (cf.release.map natStr) ++ sPre cf

/-- The canonical string determined by canonical field values. -/
def renderC (cf : CFields) : List Char :=
  (match cf.epoch with
   | some e => natStr e ++ ['!']
   | none => []) ++ sRel cf

/-- The captures the Grammar Matcher produces on `renderC cf`. -/
def fieldsC (cf : CFields) : Fields where
  epoch := cf.epoch.map natStr
  release := cf.release.map natStr
  pre_l := cf.pre.map (fun p => p.1)
  pre_n := cf.pre.map (fun p => natStr p.2)
  post_n1 := none
  post_l := cf.post.map (fun _ => ['p','o','s','t'])
  post_n2 := cf.post.map natStr
  dev_l := cf.dev.isSome
  dev_n := cf.dev.map natStr
  localv := cf.localSegs.map joinDots

/-- Well-formedness of canonical field values: what the Canonicalizer
actually produces.  The release list is nonempty, the pre-release spelling is
canonical, and each local segment is a nonempty alphanumeric run that is
already in canonical numeric form when it is all digits. -/
def WFC (cf : CFields) : Prop :=
  cf.release ≠ [] ∧
  (∀ t n, cf.pre = some (t, n) → t = ['a'] ∨ t = ['b'] ∨ t = ['r','c']) ∧
  (∀ segs, cf.localSegs = some segs →
    segs ≠ [] ∧ ∀ x ∈ segs, x ≠ [] ∧ x.all isLowerAlnum = true ∧
      (pyIsDigit x = true → natStr (strInt x) = x))

/-- The canonical field values extracted from a match, mirroring the numeric
conversions the Canonicalizer performs on each group. -/
def canonC (f : Fields) : CFields where
  epoch := f.epoch.map strInt
  release := f.release.map strInt
  pre := f.pre_l.map (fun t => (pre_spellings t, strInt (canonN f.pre_n)))
  post :=
    match f.post_n1 with
    | some n1 => some (strInt n1)
    | none =>
        match f.post_l with
        | some _ => some (strInt (canonN f.post_n2))
        | none => none
  dev := if f.dev_l then some (strInt (canonN f.dev_n)) else none
  localSegs := f.localv.map processedSegs

/-! ## Character-class facts -/

theorem isDigit_elim {c : Char} (h : isDigit c = true) :
    c = '0' ∨ c = '1' ∨ c = '2' ∨ c = '3' ∨ c = '4' ∨
    c = '5' ∨ c = '6' ∨ c = '7' ∨ c = '8' ∨ c = '9' := by
  simp [isDigit] at h
  tauto

theorem isWs_elim {c : Char} (h : isWs c = true) :
    c = ' ' ∨ c = '\t' ∨ c = '\n' ∨ c = '\r' ∨ c = '\x0b' ∨ c = '\x0c' := by
  simp [isWs] at h
  tauto

theorem isSep_elim {c : Char} (h : isSep c = true) :
    c = '-' ∨ c = '_' ∨ c = '.' := by
  simp [isSep] at h
  tauto

theorem digit_not_ws {c : Char} (h : isDigit c = true) : isWs c = false := by
  rcases isDigit_elim h with rfl|rfl|rfl|rfl|rfl|rfl|rfl|rfl|rfl|rfl <;> decide

theorem digit_not_sep {c : Char} (h : isDigit c = true) : isSep c = false := by
  rcases isDigit_elim h with rfl|rfl|rfl|rfl|rfl|rfl|rfl|rfl|rfl|rfl <;> decide

theorem digit_alnum {c : Char} (h : isDigit c = true) : isLowerAlnum c = true := by
  simp [isLowerAlnum, h]

theorem digit_ne {c : Char} (h : isDigit c = true) (d : Char) (hd : isDigit d = false) :
    c ≠ d := by
  intro he; rw [he] at h; rw [h] at hd; cases hd

theorem ws_not_digit {c : Char} (h : isWs c = true) : isDigit c = false := by
  rcases isWs_elim h with rfl|rfl|rfl|rfl|rfl|rfl <;> decide

theorem ws_not_sep {c : Char} (h : isWs c = true) : isSep c = false := by
  rcases isWs_elim h with rfl|rfl|rfl|rfl|rfl|rfl <;> decide

theorem ws_not_alnum {c : Char} (h : isWs c = true) : isLowerAlnum c = false := by
  rcases isWs_elim h with rfl|rfl|rfl|rfl|rfl|rfl <;> decide

theorem ws_ne {c : Char} (h : isWs c = true) (d : Char) (hd : isWs d = false) : c ≠ d := by
  intro he; rw [he] at h; rw [h] at hd; cases hd

theorem charVal_lt_ten {c : Char} (h : isDigit c = true) : charVal c < 10 := by
  rcases isDigit_elim h with rfl|rfl|rfl|rfl|rfl|rfl|rfl|rfl|rfl|rfl <;> decide

theorem digitChar_charVal {c : Char} (h : isDigit c = true) :
    Nat.digitChar (charVal c) = c := by
  rcases isDigit_elim h with rfl|rfl|rfl|rfl|rfl|rfl|rfl|rfl|rfl|rfl <;> rfl

theorem charVal_digitChar {d : Nat} (h : d < 10) : charVal (Nat.digitChar d) = d := by
  interval_cases d <;> rfl

theorem isDigit_digitChar {d : Nat} (h : d < 10) : isDigit (Nat.digitChar d) = true := by
  interval_cases d <;> rfl

theorem charVal_zero {c : Char} (hc : isDigit c = true) (h : charVal c = 0) : c = '0' := by
  rcases isDigit_elim hc with rfl|rfl|rfl|rfl|rfl|rfl|rfl|rfl|rfl|rfl
  · rfl
  all_goals exact absurd h (by decide)

/-! ## Decimal rendering: `natStr`, `strInt` -/

theorem natStrF_eq {fuel n : Nat} (h : n ≤ fuel) :
    natStrF fuel n = ((Nat.digits 10 n).map Nat.digitChar).reverse := by
  induction fuel generalizing n with
  | zero =>
      interval_cases n
      simp [natStrF]
  | succ fuel ih =>
      match n with
      | 0 => simp [natStrF]
      | n + 1 =>
          rw [natStrF, ih (by
            have := Nat.div_lt_self (Nat.succ_pos n) (by norm_num : 1 < 10)
            omega)]
          rw [Nat.digits_def' (by norm_num : 1 < 10) (Nat.succ_pos n)]
          simp

theorem natStr_eq (n : Nat) :
    natStr n = if n = 0 then ['0'] else ((Nat.digits 10 n).map Nat.digitChar).reverse := by
  unfold natStr
  split
  · rfl
  · exact natStrF_eq (Nat.le_refl n)

theorem natStr_all_digit (n : Nat) : (natStr n).all isDigit = true := by
  rw [natStr_eq]
  split
  · decide
  · rw [List.all_eq_true]
    intro c hc
    rw [List.mem_reverse, List.mem_map] at hc
    obtain ⟨d, hd, rfl⟩ := hc
    exact isDigit_digitChar (Nat.digits_lt_base (by norm_num) hd)

theorem natStr_ne_nil (n : Nat) : natStr n ≠ [] := by
  rw [natStr_eq]
  split
  · simp
  · simp [Nat.digits_ne_nil_iff_ne_zero, *]

theorem strInt_ofDigits (ds : List Char) :
    strInt ds = Nat.ofDigits 10 ((ds.map charVal).reverse) := by
  suffices h : ∀ (a : Nat),
      ds.foldl (fun n c => 10 * n + charVal c) a =
        Nat.ofDigits 10 ((ds.map charVal).reverse) + a * 10 ^ ds.length by
    have := h 0
    simpa [strInt] using this
  induction ds with
  | nil => intro a; simp [Nat.ofDigits_nil]
  | cons c ds ih =>
      intro a
      rw [List.foldl_cons, ih]
      simp only [List.map_cons, List.reverse_cons, Nat.ofDigits_append,
        List.length_reverse, List.length_map, Nat.ofDigits_singleton,
        List.length_cons]
      ring

theorem strInt_natStr (n : Nat) : strInt (natStr n) = n := by
  rw [natStr_eq]
  split
  · subst n; rfl
  · rw [strInt_ofDigits, List.map_reverse, List.reverse_reverse, List.map_map]
    have : (Nat.digits 10 n).map (charVal ∘ Nat.digitChar) = (Nat.digits 10 n).map id :=
      List.map_congr_left fun d hd =>
        charVal_digitChar (Nat.digits_lt_base (by norm_num) hd)
    rw [this, List.map_id, Nat.ofDigits_digits]

theorem natStr_cons (n : Nat) : ∃ c cs, natStr n = c :: cs ∧ isDigit c = true := by
  have hne := natStr_ne_nil n
  have hall := natStr_all_digit n
  match h : natStr n with
  | [] => exact absurd h hne
  | c :: cs =>
      refine ⟨c, cs, rfl, ?_⟩
      rw [h, List.all_cons, Bool.and_eq_true] at hall
      exact hall.1

theorem strInt_cons_zero (ds : List Char) : strInt ('0' :: ds) = strInt ds := rfl

theorem strInt_dropZeros (ds : List Char) :
    strInt (ds.dropWhile (· == '0')) = strInt ds := by
  induction ds with
  | nil => rfl
  | cons c ds ih =>
      by_cases h : c = '0'
      · subst h
        rw [List.dropWhile_cons_of_pos (by simp), ih, strInt_cons_zero]
      · rw [List.dropWhile_cons_of_neg (by simpa using h)]

theorem dropWhile_head_false {p : Char → Bool} {l r : List Char} {c : Char}
    (h : l.dropWhile p = c :: r) : p c = false := by
  induction l with
  | nil => simp at h
  | cons a l ih =>
      rw [List.dropWhile_cons] at h
      split at h
      · exact ih h
      · cases h
        simp_all

theorem all_dropWhile {p q : Char → Bool} {l : List Char} (h : l.all p = true) :
    (l.dropWhile q).all p = true := by
  rw [List.all_eq_true] at h ⊢
  intro a ha
  exact h a ((List.dropWhile_sublist q).subset ha)

theorem natStr_strInt_canon {ds : List Char} (h1 : ds.all isDigit = true)
    (h2 : ds ≠ []) (h3 : ∀ c cs, ds = c :: cs → c ≠ '0') :
    natStr (strInt ds) = ds := by
  have hL : ∀ l ∈ (ds.map charVal).reverse, l < 10 := by
    intro l hl
    rw [List.mem_reverse, List.mem_map] at hl
    obtain ⟨c, hc, rfl⟩ := hl
    exact charVal_lt_ten (by rw [List.all_eq_true] at h1; exact h1 c hc)
  have hLne : (ds.map charVal).reverse ≠ [] := by
    simpa using h2
  have hlast : ∀ (h : (ds.map charVal).reverse ≠ []),
      ((ds.map charVal).reverse).getLast h ≠ 0 := by
    intro h
    match ds, h1, h2, h3 with
    | c :: cs, h1, h2, h3 =>
        have hcd : isDigit c = true := by
          rw [List.all_cons, Bool.and_eq_true] at h1; exact h1.1
        rw [List.getLast_reverse]
        simp only [List.map_cons, List.head_cons]
        intro h0
        exact h3 c cs rfl (charVal_zero hcd h0)
  have hdig := Nat.digits_ofDigits 10 (by norm_num) _ hL hlast
  rw [← strInt_ofDigits] at hdig
  have hne0 : strInt ds ≠ 0 := by
    intro h0
    rw [h0] at hdig
    simp only [Nat.digits_zero] at hdig
    exact hLne hdig.symm
  rw [natStr_eq, if_neg hne0, hdig, List.map_reverse, List.reverse_reverse,
    List.map_map]
  have : ds.map (Nat.digitChar ∘ charVal) = ds.map id :=
    List.map_congr_left fun c hc =>
      digitChar_charVal (by rw [List.all_eq_true] at h1; exact h1 c hc)
  rw [this, List.map_id]

theorem natStr_strInt_stripZeros {ds : List Char} (h2 : ds ≠ [])
    (h1 : ds.all isDigit = true) : natStr (strInt ds) = stripZeros ds := by
  rw [← strInt_dropZeros ds, stripZeros]
  split
  case isTrue h =>
    rw [h]
    rfl
  case isFalse h =>
    apply natStr_strInt_canon (all_dropWhile h1) h
    intro c cs hc h0
    have := dropWhile_head_false hc
    rw [h0] at this
    simp at this

theorem canonN_natStr (x : Option (List Char)) :
    natStr (strInt (canonN x)) = canonN x := by
  cases x with
  | none => rfl
  | some d => simp [canonN, strInt_natStr]

/-! ## Reparsing canonical strings: single-token lemmas -/

theorem takeWhile_all_append {p : Char → Bool} {l rest : List Char}
    (h1 : l.all p = true) (h2 : ∀ c r, rest = c :: r → p c = false) :
    (l ++ rest).takeWhile p = l := by
  induction l with
  | nil =>
      match rest with
      | [] => rfl
      | c :: r => simp [List.takeWhile_cons, h2 c r rfl]
  | cons a l ih =>
      rw [List.all_cons, Bool.and_eq_true] at h1
      simp [List.takeWhile_cons, h1.1, ih h1.2]

theorem dropWhile_all_append {p : Char → Bool} {l rest : List Char}
    (h1 : l.all p = true) (h2 : ∀ c r, rest = c :: r → p c = false) :
    (l ++ rest).dropWhile p = rest := by
  induction l with
  | nil =>
      match rest with
      | [] => rfl
      | c :: r => simp [List.dropWhile_cons, h2 c r rfl]
  | cons a l ih =>
      rw [List.all_cons, Bool.and_eq_true] at h1
      simp [List.dropWhile_cons, h1.1, ih h1.2]

theorem takeWhile_cons_append {p : Char → Bool} {c : Char} {cs rest : List Char}
    (h1 : (c :: cs).all p = true) (h2 : ∀ a r, rest = a :: r → p a = false) :
    List.takeWhile p (c :: (cs ++ rest)) = c :: cs := by
  have := @takeWhile_all_append p (c :: cs) rest h1 h2
  simpa using this

theorem dropWhile_cons_append {p : Char → Bool} {c : Char} {cs rest : List Char}
    (h1 : (c :: cs).all p = true) (h2 : ∀ a r, rest = a :: r → p a = false) :
    List.dropWhile p (c :: (cs ++ rest)) = rest := by
  have := @dropWhile_all_append p (c :: cs) rest h1 h2
  simpa using this

theorem eatWs_cons {c : Char} {r : List Char} (h : isWs c = false) :
    eatWs (c :: r) = c :: r := by
  simp [eatWs, List.dropWhile_cons, h]

theorem eatV_digit {c : Char} {r : List Char} (h : isDigit c = true) :
    eatV (c :: r) = c :: r := by
  rcases isDigit_elim h with rfl|rfl|rfl|rfl|rfl|rfl|rfl|rfl|rfl|rfl <;> rfl

theorem eatSep_cons_not {c : Char} {r : List Char} (h : isSep c = false) :
    eatSep (c :: r) = c :: r := by
  simp [eatSep, h]

theorem tagAt_a {c : Char} {r : List Char} (h : isDigit c = true) :
    tagAt ('a' :: c :: r) = some (['a'], c :: r) := by
  rcases isDigit_elim h with rfl|rfl|rfl|rfl|rfl|rfl|rfl|rfl|rfl|rfl <;> rfl

theorem tagAt_b {c : Char} {r : List Char} (h : isDigit c = true) :
    tagAt ('b' :: c :: r) = some (['b'], c :: r) := by
  rcases isDigit_elim h with rfl|rfl|rfl|rfl|rfl|rfl|rfl|rfl|rfl|rfl <;> rfl

theorem tagAt_rc (r : List Char) : tagAt ('r' :: 'c' :: r) = some (['r','c'], r) := rfl

theorem parsePre_nil : parsePre [] = ((none, none), []) := rfl

theorem parsePre_plus (r : List Char) : parsePre ('+' :: r) = ((none, none), '+' :: r) := rfl

theorem parsePre_dot_post (r : List Char) :
    parsePre ('.' :: 'p' :: 'o' :: 's' :: 't' :: r) =
      ((none, none), '.' :: 'p' :: 'o' :: 's' :: 't' :: r) := rfl

theorem parsePre_dot_dev (r : List Char) :
    parsePre ('.' :: 'd' :: 'e' :: 'v' :: r) =
      ((none, none), '.' :: 'd' :: 'e' :: 'v' :: r) := rfl

theorem parsePost_nil : parsePost [] = ((none, none, none), []) := rfl

theorem parsePost_plus (r : List Char) :
    parsePost ('+' :: r) = ((none, none, none), '+' :: r) := rfl

theorem parsePost_dot_dev (r : List Char) :
    parsePost ('.' :: 'd' :: 'e' :: 'v' :: r) =
      ((none, none, none), '.' :: 'd' :: 'e' :: 'v' :: r) := rfl

theorem parseDev_nil : parseDev [] = ((false, none), []) := rfl

theorem parseDev_plus (r : List Char) :
    parseDev ('+' :: r) = ((false, none), '+' :: r) := rfl

/-! ## Reparsing canonical strings: repetition lemmas -/

theorem joinDots_cons (x : List Char) (xs : List (List Char)) :
    joinDots (x :: xs) = x ++ xs.flatMap (fun y => '.' :: y) := by
  induction xs generalizing x with
  | nil => simp [joinDots]
  | cons y ys ih => simp [joinDots, ih y]

theorem flatMap_dots_head {xs : List (List Char)} {rest : List Char}
    (h1 : ∀ c r, rest = c :: r → isDigit c = false) :
    ∀ c r, xs.flatMap (fun y => '.' :: y) ++ rest = c :: r → isDigit c = false := by
  intro c r h
  cases xs with
  | nil => exact h1 c r (by simpa using h)
  | cons y ys =>
      rw [List.flatMap_cons] at h
      simp only [List.cons_append] at h
      cases h
      decide

theorem relTailF_stop (fuel : Nat) (s : List Char)
    (h : ∀ c r, s = '.' :: c :: r → isDigit c = false) :
    relTailF fuel s = ([], s) := by
  cases fuel with
  | zero => rfl
  | succ fuel =>
      unfold relTailF
      split
      · rw [if_neg]
        rw [h _ _ rfl]
        simp
      · rfl

theorem relTailF_render (xs : List (List Char)) (rest : List Char) (fuel : Nat)
    (hxs : ∀ x ∈ xs, x ≠ [] ∧ x.all isDigit = true)
    (h1 : ∀ c r, rest = c :: r → isDigit c = false)
    (h2 : ∀ c r, rest = '.' :: c :: r → isDigit c = false)
    (hlen : (xs.flatMap (fun y => '.' :: y) ++ rest).length ≤ fuel) :
    relTailF fuel (xs.flatMap (fun y => '.' :: y) ++ rest) = (xs, rest) := by
  induction xs generalizing fuel with
  | nil =>
      simp only [List.flatMap_nil, List.nil_append]
      exact relTailF_stop fuel rest h2
  | cons x xs ih =>
      obtain ⟨hne, hall⟩ := hxs x (List.mem_cons_self x xs)
      match x, hne with
      | c :: cs, _ =>
          have hc : isDigit c = true := by
            rw [List.all_cons, Bool.and_eq_true] at hall; exact hall.1
          rw [List.flatMap_cons]
          simp only [List.cons_append, List.append_assoc]
          have hfm := @flatMap_dots_head xs rest h1
          match fuel, hlen with
          | fuel + 1, hlen =>
              unfold relTailF
              simp only
              rw [if_pos hc]
              rw [takeWhile_cons_append hall hfm, dropWhile_cons_append hall hfm]
              rw [ih fuel (fun x hx => hxs x (List.mem_cons_of_mem _ hx)) (by
                simp only [List.flatMap_cons, List.length_append, List.cons_append,
                  List.length_cons] at hlen ⊢
                omega)]

theorem localTailF_nil (fuel : Nat) : localTailF fuel [] = ([], []) := by
  cases fuel <;> rfl

theorem eatSep_dot (r : List Char) : eatSep ('.' :: r) = r := rfl

theorem localTailF_render (xs : List (List Char)) (fuel : Nat)
    (hxs : ∀ x ∈ xs, x ≠ [] ∧ x.all isLowerAlnum = true)
    (hlen : (xs.flatMap (fun y => '.' :: y)).length ≤ fuel) :
    localTailF fuel (xs.flatMap (fun y => '.' :: y)) =
      (xs.flatMap (fun y => '.' :: y), []) := by
  induction xs generalizing fuel with
  | nil => simpa using localTailF_nil fuel
  | cons x xs ih =>
      obtain ⟨hne, hall⟩ := hxs x (List.mem_cons_self x xs)
      match x, hne with
      | d :: ds, _ =>
          have hd : isLowerAlnum d = true := by
            rw [List.all_cons, Bool.and_eq_true] at hall; exact hall.1
          have hfm : ∀ c r, xs.flatMap (fun y => '.' :: y) = c :: r →
              isLowerAlnum c = false := by
            intro c r h
            cases xs with
            | nil => simp at h
            | cons y ys =>
                rw [List.flatMap_cons] at h
                simp only [List.cons_append] at h
                cases h
                decide
          rw [List.flatMap_cons]
          simp only [List.cons_append]
          match fuel, hlen with
          | fuel + 1, hlen =>
              unfold localTailF
              simp only
              rw [if_pos (by rw [hd]; decide : (isSep '.' && isLowerAlnum d) = true)]
              rw [takeWhile_cons_append hall hfm, dropWhile_cons_append hall hfm]
              rw [ih fuel (fun x hx => hxs x (List.mem_cons_of_mem _ hx)) (by
                simp only [List.flatMap_cons, List.length_append, List.cons_append,
                  List.length_cons] at hlen ⊢
                omega)]
              simp

/-! ## Reparsing canonical strings: stage lemmas -/

theorem parseLocal_nil : parseLocal [] = (none, []) := rfl

theorem parseLocal_render (segs : List (List Char)) (hne : segs ≠ [])
    (hwf : ∀ x ∈ segs, x ≠ [] ∧ x.all isLowerAlnum = true) :
    parseLocal ('+' :: joinDots segs) = (some (joinDots segs), []) := by
  match segs, hne with
  | x :: xs, _ =>
      obtain ⟨hxne, hxall⟩ := hwf x (List.mem_cons_self x xs)
      match x, hxne with
      | d :: ds, _ =>
          have hfm : ∀ c r, xs.flatMap (fun y => '.' :: y) = c :: r →
              isLowerAlnum c = false := by
            intro c r h
            cases xs with
            | nil => simp at h
            | cons y ys =>
                rw [List.flatMap_cons] at h
                simp only [List.cons_append] at h
                cases h
                decide
          rw [joinDots_cons]
          simp only [List.cons_append]
          simp only [parseLocal]
          rw [takeWhile_cons_append hxall hfm, dropWhile_cons_append hxall hfm]
          simp only [List.isEmpty_cons, Bool.false_eq_true, if_false]
          rw [localTailF_render xs _ (fun y hy => hwf y (List.mem_cons_of_mem _ hy))
            (Nat.le_refl _)]
          simp

theorem parseDev_render (n : Nat) (rest : List Char)
    (hrest : ∀ c r, rest = c :: r → isDigit c = false) :
    parseDev ('.' :: 'd' :: 'e' :: 'v' :: (natStr n ++ rest)) =
      ((true, some (natStr n)), rest) := by
  obtain ⟨c, cs, hn, hc⟩ := natStr_cons n
  have hall := natStr_all_digit n
  rw [hn] at hall ⊢
  simp only [List.cons_append]
  unfold parseDev
  rw [eatSep_dot]
  simp only [startsWith, List.drop_succ_cons, List.drop_zero]
  rw [eatSep_cons_not (digit_not_sep hc)]
  rw [takeWhile_cons_append hall hrest, dropWhile_cons_append hall hrest]
  simp

theorem parsePost_render (n : Nat) (rest : List Char)
    (hrest : ∀ c r, rest = c :: r → isDigit c = false) :
    parsePost ('.' :: 'p' :: 'o' :: 's' :: 't' :: (natStr n ++ rest)) =
      ((none, some ['p','o','s','t'], some (natStr n)), rest) := by
  obtain ⟨c, cs, hn, hc⟩ := natStr_cons n
  have hall := natStr_all_digit n
  rw [hn] at hall ⊢
  simp only [List.cons_append]
  rw [show (parsePost ('.' :: 'p' :: 'o' :: 's' :: 't' :: (c :: (cs ++ rest)))) =
    parsePostTag ('.' :: 'p' :: 'o' :: 's' :: 't' :: (c :: (cs ++ rest))) from rfl]
  unfold parsePostTag
  rw [eatSep_dot]
  simp only [postTagAt, startsWith, List.drop_succ_cons, List.drop_zero]
  simp only [show (('p' == 'p' && ('o' == 'o' && ('s' == 's' && ('t' == 't' && true))))) = true
    from rfl, if_true]
  rw [eatSep_cons_not (digit_not_sep hc)]
  rw [takeWhile_cons_append hall hrest, dropWhile_cons_append hall hrest]
  simp

theorem parsePre_render (t : List Char) (n : Nat) (rest : List Char)
    (ht : t = ['a'] ∨ t = ['b'] ∨ t = ['r','c'])
    (hrest : ∀ c r, rest = c :: r → isDigit c = false) :
    parsePre (t ++ (natStr n ++ rest)) = ((some t, some (natStr n)), rest) := by
  obtain ⟨c, cs, hn, hc⟩ := natStr_cons n
  have hall := natStr_all_digit n
  rw [hn] at hall ⊢
  rcases ht with rfl | rfl | rfl <;>
    simp only [List.cons_append, List.nil_append] <;>
    unfold parsePre
  · rw [eatSep_cons_not (by decide)]
    simp only [tagAt_a hc, eatSep_cons_not (digit_not_sep hc),
      takeWhile_cons_append hall hrest, dropWhile_cons_append hall hrest]
    simp
  · rw [eatSep_cons_not (by decide)]
    simp only [tagAt_b hc, eatSep_cons_not (digit_not_sep hc),
      takeWhile_cons_append hall hrest, dropWhile_cons_append hall hrest]
    simp
  · rw [eatSep_cons_not (by decide)]
    simp only [tagAt_rc, eatSep_cons_not (digit_not_sep hc),
      takeWhile_cons_append hall hrest, dropWhile_cons_append hall hrest]
    simp

theorem parseRelease_render (x : List Char) (xs : List (List Char)) (rest : List Char)
    (hx : x ≠ []) (hxa : x.all isDigit = true)
    (hxs : ∀ y ∈ xs, y ≠ [] ∧ y.all isDigit = true)
    (h1 : ∀ c r, rest = c :: r → isDigit c = false)
    (h2 : ∀ c r, rest = '.' :: c :: r → isDigit c = false) :
    parseRelease (joinDots (x :: xs) ++ rest) = some (x :: xs, rest) := by
  match x, hx with
  | c :: cs, _ =>
      have hfm := @flatMap_dots_head xs rest h1
      rw [joinDots_cons]
      simp only [List.cons_append, List.append_assoc]
      unfold parseRelease
      rw [takeWhile_cons_append hxa hfm, dropWhile_cons_append hxa hfm]
      simp only [List.isEmpty_cons, Bool.false_eq_true, if_false]
      rw [relTailF_render xs rest _ hxs h1 h2 (Nat.le_refl _)]

theorem parseEpoch_render (e : List Char) (rest : List Char)
    (he : e ≠ []) (hea : e.all isDigit = true) :
    parseEpoch (e ++ '!' :: rest) = (some e, rest) := by
  match e, he with
  | c :: cs, _ =>
      have hbang : ∀ a r, ('!' :: rest) = a :: r → isDigit a = false := by
        intro a r h
        cases h
        decide
      simp only [List.cons_append]
      unfold parseEpoch
      rw [takeWhile_cons_append hea hbang, dropWhile_cons_append hea hbang]
      simp

theorem parseEpoch_skip (x : List Char) (rest : List Char)
    (hx : x ≠ []) (hxa : x.all isDigit = true)
    (hr : ∀ c r, rest = c :: r → isDigit c = false ∧ c ≠ '!') :
    parseEpoch (x ++ rest) = (none, x ++ rest) := by
  match x, hx with
  | c :: cs, _ =>
      have hr1 : ∀ a r, rest = a :: r → isDigit a = false := fun a r h => (hr a r h).1
      simp only [List.cons_append]
      unfold parseEpoch
      rw [takeWhile_cons_append hxa hr1, dropWhile_cons_append hxa hr1]
      match rest, hr with
      | [], _ => rfl
      | a :: r, hr =>
          have := (hr a r rfl).2
          simp only [List.isEmpty_cons, Bool.false_eq_true, if_false]
          split
          · simp_all
          · rfl

/-! ## Reparsing canonical strings: the suffix chain -/

theorem sLoc_shape (cf : CFields) : sLoc cf = [] ∨ ∃ r, sLoc cf = '+' :: r := by
  cases h : cf.localSegs <;> simp [sLoc, h]

theorem sDev_shape (cf : CFields) :
    sDev cf = [] ∨ (∃ r, sDev cf = '+' :: r) ∨
      (∃ r, sDev cf = '.' :: 'd' :: 'e' :: 'v' :: r) := by
  cases h : cf.dev with
  | none =>
      rcases sLoc_shape cf with h2 | ⟨r, h2⟩ <;> simp [sDev, h, h2]
  | some n =>
      right; right
      exact ⟨natStr n ++ sLoc cf, by simp [sDev, h]⟩

theorem sPost_shape (cf : CFields) :
    sPost cf = [] ∨ (∃ r, sPost cf = '+' :: r) ∨
      (∃ r, sPost cf = '.' :: 'd' :: 'e' :: 'v' :: r) ∨
      (∃ r, sPost cf = '.' :: 'p' :: 'o' :: 's' :: 't' :: r) := by
  cases h : cf.post with
  | none =>
      rcases sDev_shape cf with h2 | ⟨r, h2⟩ | ⟨r, h2⟩ <;> simp [sPost, h, h2]
  | some n =>
      right; right; right
      exact ⟨natStr n ++ sDev cf, by simp [sPost, h]⟩

theorem sLoc_head (cf : CFields) : ∀ c r, sLoc cf = c :: r → isDigit c = false := by
  intro c r hc
  rcases sLoc_shape cf with h | ⟨r2, h⟩ <;> rw [h] at hc
  · cases hc
  · cases hc; decide

theorem sDev_head (cf : CFields) : ∀ c r, sDev cf = c :: r → isDigit c = false := by
  intro c r hc
  rcases sDev_shape cf with h | ⟨r2, h⟩ | ⟨r2, h⟩ <;> rw [h] at hc
  · cases hc
  · cases hc; decide
  · cases hc; decide

theorem sPost_head (cf : CFields) : ∀ c r, sPost cf = c :: r → isDigit c = false := by
  intro c r hc
  rcases sPost_shape cf with h | ⟨r2, h⟩ | ⟨r2, h⟩ | ⟨r2, h⟩ <;> rw [h] at hc
  · cases hc
  · cases hc; decide
  · cases hc; decide
  · cases hc; decide

theorem parseLocal_sLoc (cf : CFields)
    (hloc : ∀ segs, cf.localSegs = some segs →
      segs ≠ [] ∧ ∀ x ∈ segs, x ≠ [] ∧ x.all isLowerAlnum = true ∧
        (pyIsDigit x = true → natStr (strInt x) = x)) :
    parseLocal (sLoc cf) = (cf.localSegs.map joinDots, []) := by
  cases h : cf.localSegs with
  | none => simp [sLoc, h, parseLocal_nil]
  | some segs =>
      obtain ⟨hne, hwf⟩ := hloc segs h
      simp only [sLoc, h, Option.map_some]
      exact parseLocal_render segs hne fun x hx => ⟨(hwf x hx).1, (hwf x hx).2.1⟩

theorem parseDev_sDev (cf : CFields) :
    parseDev (sDev cf) = ((cf.dev.isSome, cf.dev.map natStr), sLoc cf) := by
  cases h : cf.dev with
  | none =>
      rcases sLoc_shape cf with h2 | ⟨r, h2⟩ <;>
        simp [sDev, h, h2, parseDev_nil, parseDev_plus]
  | some n =>
      have : sDev cf = '.' :: 'd' :: 'e' :: 'v' :: (natStr n ++ sLoc cf) := by
        simp [sDev, h]
      rw [this, parseDev_render n (sLoc cf) (sLoc_head cf)]
      simp

theorem parsePost_sPost (cf : CFields) :
    parsePost (sPost cf) =
      ((none, cf.post.map (fun _ => ['p','o','s','t']), cf.post.map natStr), sDev cf) := by
  cases h : cf.post with
  | none =>
      rcases sDev_shape cf with h2 | ⟨r, h2⟩ | ⟨r, h2⟩ <;>
        simp [sPost, h, h2, parsePost_nil, parsePost_plus, parsePost_dot_dev]
  | some n =>
      have : sPost cf = '.' :: 'p' :: 'o' :: 's' :: 't' :: (natStr n ++ sDev cf) := by
        simp [sPost, h]
      rw [this, parsePost_render n (sDev cf) (sDev_head cf)]
      simp

theorem parsePre_sPre (cf : CFields)
    (hpre : ∀ t n, cf.pre = some (t, n) → t = ['a'] ∨ t = ['b'] ∨ t = ['r','c']) :
    parsePre (sPre cf) =
      ((cf.pre.map (fun p => p.1), cf.pre.map (fun p => natStr p.2)), sPost cf) := by
  cases h : cf.pre with
  | none =>
      rcases sPost_shape cf with h2 | ⟨r, h2⟩ | ⟨r, h2⟩ | ⟨r, h2⟩ <;>
        simp [sPre, h, h2, parsePre_nil, parsePre_plus, parsePre_dot_dev, parsePre_dot_post]
  | some tn =>
      match tn with
      | (t, n) =>
          have : sPre cf = t ++ (natStr n ++ sPost cf) := by
            simp [sPre, h]
          rw [this, parsePre_render t n (sPost cf) (hpre t n h) (sPost_head cf)]
          simp

theorem sPre_head (cf : CFields)
    (hpre : ∀ t n, cf.pre = some (t, n) → t = ['a'] ∨ t = ['b'] ∨ t = ['r','c']) :
    ∀ c r, sPre cf = c :: r → isDigit c = false ∧ c ≠ '!' := by
  intro c r hc
  cases h : cf.pre with
  | none =>
      rw [sPre, h] at hc
      simp only [List.nil_append] at hc
      rcases sPost_shape cf with h2 | ⟨r2, h2⟩ | ⟨r2, h2⟩ | ⟨r2, h2⟩ <;> rw [h2] at hc <;>
        cases hc <;> exact ⟨by decide, by decide⟩
  | some tn =>
      match tn with
      | (t, n) =>
          rw [sPre, h] at hc
          rcases hpre t n h with rfl | rfl | rfl <;>
            simp only [List.cons_append, List.nil_append] at hc <;>
            cases hc <;> exact ⟨by decide, by decide⟩

theorem sPre_dot_head (cf : CFields)
    (hpre : ∀ t n, cf.pre = some (t, n) → t = ['a'] ∨ t = ['b'] ∨ t = ['r','c']) :
    ∀ c r, sPre cf = '.' :: c :: r → isDigit c = false := by
  intro c r hc
  cases h : cf.pre with
  | none =>
      rw [sPre, h] at hc
      simp only [List.nil_append] at hc
      rcases sPost_shape cf with h2 | ⟨r2, h2⟩ | ⟨r2, h2⟩ | ⟨r2, h2⟩ <;> rw [h2] at hc <;>
        cases hc <;> decide
  | some tn =>
      match tn with
      | (t, n) =>
          rw [sPre, h] at hc
          rcases hpre t n h with rfl | rfl | rfl <;>
            simp only [List.cons_append, List.nil_append] at hc <;>
            cases hc

theorem parseRelease_sRel (cf : CFields) (hrel : cf.release ≠ [])
    (hpre : ∀ t n, cf.pre = some (t, n) → t = ['a'] ∨ t = ['b'] ∨ t = ['r','c']) :
    parseRelease (sRel cf) = some (cf.release.map natStr, sPre cf) := by
  match hr : cf.release, hrel with
  | x :: xs, _ =>
      have : sRel cf = joinDots (natStr x :: xs.map natStr) ++ sPre cf := by
        simp [sRel, hr]
      rw [this]
      rw [parseRelease_render (natStr x) (xs.map natStr) (sPre cf)
        (natStr_ne_nil x) (natStr_all_digit x)
        (by
          intro y hy
          rw [List.mem_map] at hy
          obtain ⟨k, _, rfl⟩ := hy
          exact ⟨natStr_ne_nil k, natStr_all_digit k⟩)
        (fun c r h => (sPre_head cf hpre c r h).1)
        (sPre_dot_head cf hpre)]
      simp [hr]

/-- On any well-formed canonical field values, the Grammar Matcher accepts the
rendered canonical string and captures exactly the canonical groups. -/
theorem match_renderC (cf : CFields) (hwf : WFC cf) :
    VERSION_PERMISSIVE_match (renderC cf) = some (fieldsC cf) := by
  obtain ⟨hrel, hpre, hloc⟩ := hwf
  have hpreP := parsePre_sPre cf hpre
  have hpostP := parsePost_sPost cf
  have hdevP := parseDev_sDev cf
  have hlocP := parseLocal_sLoc cf hloc
  have hrelP := parseRelease_sRel cf hrel hpre
  have hcore : VERSION_PERMISSIVE_core (renderC cf) = some (fieldsC cf, []) := by
    cases hep : cf.epoch with
    | some e =>
        obtain ⟨c, cs, hn, hc⟩ := natStr_cons e
        have h0 : renderC cf = natStr e ++ ('!' :: sRel cf) := by
          simp [renderC, hep]
        have h1 : renderC cf = c :: (cs ++ '!' :: sRel cf) := by
          rw [h0, hn]; simp
        have e0 : eatWs (renderC cf) = renderC cf := by
          rw [h1]; exact eatWs_cons (digit_not_ws hc)
        have e1 : eatV (renderC cf) = renderC cf := by
          rw [h1]; exact eatV_digit hc
        have e2 : parseEpoch (renderC cf) = (some (natStr e), sRel cf) := by
          rw [h0]
          exact parseEpoch_render _ _ (natStr_ne_nil e) (natStr_all_digit e)
        unfold VERSION_PERMISSIVE_core
        simp only [e0, e1, e2, hrelP, hpreP, hpostP, hdevP, hlocP]
        simp [fieldsC, hep]
    | none =>
        cases hrc : cf.release with
        | nil => exact absurd hrc hrel
        | cons x xs =>
            obtain ⟨c, cs, hn, hc⟩ := natStr_cons x
            have h0 : renderC cf = sRel cf := by
              simp [renderC, hep]
            have hsrel : sRel cf =
                natStr x ++ ((xs.map natStr).flatMap (fun y => '.' :: y) ++ sPre cf) := by
              simp [sRel, hrc, joinDots_cons, List.append_assoc]
            have h1 : renderC cf = c :: (cs ++ ((xs.map natStr).flatMap (fun y => '.' :: y) ++ sPre cf)) := by
              rw [h0, hsrel, hn]; simp
            have e0 : eatWs (renderC cf) = renderC cf := by
              rw [h1]; exact eatWs_cons (digit_not_ws hc)
            have e1 : eatV (renderC cf) = renderC cf := by
              rw [h1]; exact eatV_digit hc
            have e2 : parseEpoch (renderC cf) = (none, renderC cf) := by
              rw [h0, hsrel]
              refine parseEpoch_skip _ _ (natStr_ne_nil x) (natStr_all_digit x) ?_
              intro a r h
              cases hxs : xs with
              | nil =>
                  rw [hxs] at h
                  simp only [List.map_nil, List.flatMap_nil, List.nil_append] at h
                  exact sPre_head cf hpre a r h
              | cons y ys =>
                  rw [hxs] at h
                  simp only [List.map_cons, List.flatMap_cons] at h
                  obtain ⟨c2, cs2, hn2, hc2⟩ := natStr_cons y
                  rw [hn2] at h
                  simp only [List.cons_append] at h
                  cases h
                  exact ⟨by decide, by decide⟩
            unfold VERSION_PERMISSIVE_core
            simp only [e0, e1, e2]
            simp only [h0, hrelP, hpreP, hpostP, hdevP, hlocP]
            simp [fieldsC, hep]
  rw [VERSION_PERMISSIVE_match, hcore]
  simp [eatWs]

/-! ## The Canonicalizer on reparsed canonical fields -/

theorem replaceChar_alnum {c : Char} (h : isLowerAlnum c = true) : replaceChar c = c := by
  unfold replaceChar
  split
  case isTrue hc =>
    rcases (by simpa using hc : c = '-' ∨ c = '_') with rfl | rfl <;>
      exact absurd h (by decide)
  case isFalse hc => rfl

theorem replaceChar_dot : replaceChar '.' = '.' := rfl

theorem mem_joinDots {c : Char} {segs : List (List Char)} (h : c ∈ joinDots segs) :
    c = '.' ∨ ∃ x ∈ segs, c ∈ x := by
  induction segs with
  | nil => simp [joinDots] at h
  | cons x xs ih =>
      cases xs with
      | nil =>
          right
          exact ⟨x, List.mem_cons_self x [], by simpa [joinDots] using h⟩
      | cons y ys =>
          rw [show joinDots (x :: y :: ys) = x ++ '.' :: joinDots (y :: ys) from rfl] at h
          rw [List.mem_append, List.mem_cons] at h
          rcases h with h | h | h
          · right; exact ⟨x, List.mem_cons_self x _, h⟩
          · left; exact h
          · rcases ih h with h2 | ⟨z, hz, hcz⟩
            · left; exact h2
            · right; exact ⟨z, List.mem_cons_of_mem _ hz, hcz⟩

theorem map_replaceChar_joinDots {segs : List (List Char)}
    (hsegs : ∀ x ∈ segs, x.all isLowerAlnum = true) :
    (joinDots segs).map replaceChar = joinDots segs := by
  have : (joinDots segs).map replaceChar = (joinDots segs).map id := by
    apply List.map_congr_left
    intro c hc
    rcases mem_joinDots hc with rfl | ⟨x, hx, hcx⟩
    · exact replaceChar_dot
    · exact replaceChar_alnum (by
        have := hsegs x hx
        rw [List.all_eq_true] at this
        exact this c hcx)
  rw [this, List.map_id]

theorem splitOnDot_nodot {x : List Char} (h : ∀ c ∈ x, c ≠ '.') :
    splitOnDot x = [x] := by
  induction x with
  | nil => rfl
  | cons c x ih =>
      rw [splitOnDot]
      rw [if_neg (h c (List.mem_cons_self c x))]
      rw [ih (fun d hd => h d (List.mem_cons_of_mem _ hd))]

theorem splitOnDot_append_nodot {x t : List Char} (h : ∀ c ∈ x, c ≠ '.') :
    splitOnDot (x ++ '.' :: t) = x :: splitOnDot t := by
  induction x with
  | nil => simp [splitOnDot]
  | cons c x ih =>
      simp only [List.cons_append]
      rw [splitOnDot]
      rw [if_neg (h c (List.mem_cons_self c x))]
      rw [ih (fun d hd => h d (List.mem_cons_of_mem _ hd))]

theorem splitOnDot_joinDots {segs : List (List Char)} (hne : segs ≠ [])
    (h : ∀ x ∈ segs, ∀ c ∈ x, c ≠ '.') :
    splitOnDot (joinDots segs) = segs := by
  induction segs with
  | nil => exact absurd rfl hne
  | cons x xs ih =>
      cases xs with
      | nil => exact splitOnDot_nodot (h x (List.mem_cons_self x []))
      | cons y ys =>
          rw [show joinDots (x :: y :: ys) = x ++ '.' :: joinDots (y :: ys) from rfl]
          rw [splitOnDot_append_nodot (h x (List.mem_cons_self x _))]
          rw [ih (by simp) (fun z hz => h z (List.mem_cons_of_mem _ hz))]

theorem alnum_ne_dot {c : Char} (h : isLowerAlnum c = true) : c ≠ '.' := by
  intro he
  rw [he] at h
  exact absurd h (by decide)

theorem processedSegs_joinDots {segs : List (List Char)} (hne : segs ≠ [])
    (hwf : ∀ x ∈ segs, x ≠ [] ∧ x.all isLowerAlnum = true ∧
      (pyIsDigit x = true → natStr (strInt x) = x)) :
    processedSegs (joinDots segs) = segs := by
  unfold processedSegs
  rw [map_replaceChar_joinDots (fun x hx => (hwf x hx).2.1)]
  rw [splitOnDot_joinDots hne (fun x hx c hc => alnum_ne_dot (by
    have := (hwf x hx).2.1
    rw [List.all_eq_true] at this
    exact this c hc))]
  have : segs.map (fun c => if pyIsDigit c = true then natStr (strInt c) else c) =
      segs.map id := by
    apply List.map_congr_left
    intro x hx
    simp only [id]
    split
    case isTrue hd => exact (hwf x hx).2.2 hd
    case isFalse hd => rfl
  rw [this, List.map_id]

theorem pre_spellings_canon {t : List Char}
    (h : t = ['a'] ∨ t = ['b'] ∨ t = ['r','c']) : pre_spellings t = t := by
  rcases h with rfl | rfl | rfl <;> rfl

/-- The Canonicalizer maps the reparsed canonical captures back to the very
same canonical string. -/
theorem componentsOf_fieldsC (cf : CFields) (hwf : WFC cf) :
    (componentsOf (fieldsC cf)).flatten = renderC cf := by
  obtain ⟨hrel, hpre, hloc⟩ := hwf
  unfold componentsOf renderC
  simp only [List.flatten_append, List.flatten_cons, List.flatten_nil, List.append_nil]
  have hep : (epochComp (fieldsC cf)).flatten =
      (match cf.epoch with | some e => natStr e ++ ['!'] | none => []) := by
    cases h : cf.epoch <;>
      simp [epochComp, fieldsC, h, strInt_natStr]
  have hrc : releaseComp (fieldsC cf) = joinDots (cf.release.map natStr) := by
    unfold releaseComp
    simp only [fieldsC, List.map_map]
    congr 1
    apply List.map_congr_left
    intro k _
    simp [strInt_natStr]
  have hprc : (preComp (fieldsC cf)).flatten =
      (match cf.pre with | some (t, n) => t ++ natStr n | none => []) := by
    cases h : cf.pre with
    | none => simp [preComp, fieldsC, h]
    | some tn =>
        match tn with
        | (t, n) =>
            simp [preComp, fieldsC, h, canonN, strInt_natStr,
              pre_spellings_canon (hpre t n h)]
  have hpoc : (postComp (fieldsC cf)).flatten =
      (match cf.post with | some n => ['.','p','o','s','t'] ++ natStr n | none => []) := by
    cases h : cf.post <;>
      simp [postComp, fieldsC, h, canonN, strInt_natStr]
  have hdc : (devComp (fieldsC cf)).flatten =
      (match cf.dev with | some n => ['.','d','e','v'] ++ natStr n | none => []) := by
    cases h : cf.dev <;>
      simp [devComp, fieldsC, h, canonN, strInt_natStr]
  have hlc : (localComp (fieldsC cf)).flatten = sLoc cf := by
    cases h : cf.localSegs with
    | none => simp [localComp, fieldsC, h, sLoc]
    | some segs =>
        obtain ⟨hne, hwf2⟩ := hloc segs h
        simp [localComp, fieldsC, h, sLoc, processedSegs_joinDots hne hwf2]
  rw [hep, hrc, hprc, hpoc, hdc, hlc]
  simp [sRel, sPre, sPost, sDev]

/-! ## Inversion: what the Grammar Matcher guarantees about its captures -/

theorem replaceChar_sep {c : Char} (h : isSep c = true) : replaceChar c = '.' := by
  rcases isSep_elim h with rfl | rfl | rfl <;> rfl

theorem map_replaceChar_alnum {l : List Char} (h : l.all isLowerAlnum = true) :
    l.map replaceChar = l := by
  have : l.map replaceChar = l.map id := by
    apply List.map_congr_left
    intro c hc
    rw [List.all_eq_true] at h
    exact replaceChar_alnum (h c hc)
  rw [this, List.map_id]

theorem parseRelease_ne_nil {s : List Char} {rel : List (List Char)} {r : List Char}
    (h : parseRelease s = some (rel, r)) : rel ≠ [] := by
  by_cases hd : (s.takeWhile isDigit).isEmpty = true
  · simp only [parseRelease, hd, if_true] at h
    cases h
  · simp only [parseRelease, hd, if_false] at h
    rcases ht : relTailF (s.dropWhile isDigit).length (s.dropWhile isDigit)
      with ⟨ds, r2⟩
    rw [ht] at h
    simp only at h
    cases h
    simp

theorem tagAt_pre_spellings {s t r : List Char} (h : tagAt s = some (t, r)) :
    pre_spellings t = ['a'] ∨ pre_spellings t = ['b'] ∨ pre_spellings t = ['r','c'] := by
  unfold tagAt at h
  split_ifs at h <;> cases h <;> simp [pre_spellings]

theorem parsePre_inv {s : List Char} {pl pn : Option (List Char)} {r : List Char}
    (h : parsePre s = ((pl, pn), r)) :
    ∀ t, pl = some t →
      pre_spellings t = ['a'] ∨ pre_spellings t = ['b'] ∨ pre_spellings t = ['r','c'] := by
  intro t ht
  rcases htag : tagAt (eatSep s) with _ | ⟨tag, s2⟩ <;>
    simp only [parsePre, htag] at h
  · cases h
    cases ht
  · split at h <;> cases h <;> cases ht <;>
      exact tagAt_pre_spellings htag

theorem localTailF_inv (fuel : Nat) (s : List Char) {more rest : List Char}
    (h : localTailF fuel s = (more, rest)) :
    ∃ runs : List (List Char),
      more.map replaceChar = runs.flatMap (fun y => '.' :: y) ∧
      ∀ y ∈ runs, y ≠ [] ∧ y.all isLowerAlnum = true := by
  induction fuel generalizing s more rest with
  | zero =>
      cases h
      exact ⟨[], by simp, by simp⟩
  | succ fuel ih =>
      unfold localTailF at h
      split at h
      case h_1 c d r2 =>
        split at h
        case isTrue hcd =>
          rcases hrec : localTailF fuel ((d :: r2).dropWhile isLowerAlnum)
            with ⟨more2, r3⟩
          simp only [hrec] at h
          cases h
          obtain ⟨runs, hmap, hruns⟩ := ih _ hrec
          rw [Bool.and_eq_true] at hcd
          refine ⟨(d :: r2).takeWhile isLowerAlnum :: runs, ?_, ?_⟩
          · simp only [List.map_cons, List.map_append, List.flatMap_cons]
            rw [replaceChar_sep hcd.1, map_replaceChar_alnum (List.all_takeWhile), hmap]
            simp
          · intro y hy
            rcases List.mem_cons.mp hy with rfl | hy2
            · constructor
              · rw [List.takeWhile_cons_of_pos hcd.2]
                simp
              · exact List.all_takeWhile
            · exact hruns y hy2
        case isFalse hcd =>
          cases h
          exact ⟨[], by simp, by simp⟩
      case h_2 =>
        cases h
        exact ⟨[], by simp, by simp⟩

theorem parseLocal_inv {s raw r : List Char} (h : parseLocal s = (some raw, r)) :
    ∃ segs : List (List Char), raw.map replaceChar = joinDots segs ∧ segs ≠ [] ∧
      ∀ x ∈ segs, x ≠ [] ∧ x.all isLowerAlnum = true := by
  unfold parseLocal at h
  split at h
  case h_1 r0 =>
    by_cases hrun : (r0.takeWhile isLowerAlnum).isEmpty = true
    · simp only [hrun, if_true] at h
      cases h
    · simp only [hrun, if_false] at h
      rcases hrec : localTailF (r0.dropWhile isLowerAlnum).length
          (r0.dropWhile isLowerAlnum) with ⟨more, r2⟩
      simp only [hrec] at h
      cases h
      obtain ⟨runs, hmap, hruns⟩ := localTailF_inv _ _ hrec
      refine ⟨r0.takeWhile isLowerAlnum :: runs, ?_, by simp, ?_⟩
      · rw [List.map_append, map_replaceChar_alnum (List.all_takeWhile), hmap,
          joinDots_cons]
      · intro y hy
        rcases List.mem_cons.mp hy with rfl | hy2
        · constructor
          · intro he
            rw [he] at hrun
            simp at hrun
          · exact List.all_takeWhile
        · exact hruns y hy2
  case h_2 => cases h

theorem processedSegs_wf {raw : List Char}
    (hsh : ∃ segs : List (List Char), raw.map replaceChar = joinDots segs ∧ segs ≠ [] ∧
      ∀ x ∈ segs, x ≠ [] ∧ x.all isLowerAlnum = true) :
    processedSegs raw ≠ [] ∧ ∀ x ∈ processedSegs raw, x ≠ [] ∧ x.all isLowerAlnum = true ∧
      (pyIsDigit x = true → natStr (strInt x) = x) := by
  obtain ⟨segs, hmap, hne, hwf⟩ := hsh
  have hsplit : processedSegs raw =
      segs.map (fun c => if pyIsDigit c = true then natStr (strInt c) else c) := by
    unfold processedSegs
    rw [hmap, splitOnDot_joinDots hne (fun x hx c hc => alnum_ne_dot (by
      have := (hwf x hx).2
      rw [List.all_eq_true] at this
      exact this c hc))]
  rw [hsplit]
  constructor
  · simpa using hne
  · intro x hx
    rw [List.mem_map] at hx
    obtain ⟨y, hy, rfl⟩ := hx
    split
    case isTrue hd =>
      refine ⟨natStr_ne_nil _, ?_, ?_⟩
      · rw [List.all_eq_true]
        intro c hc
        have := natStr_all_digit (strInt y)
        rw [List.all_eq_true] at this
        exact digit_alnum (this c hc)
      · intro _
        rw [strInt_natStr]
    case isFalse hd =>
      exact ⟨(hwf y hy).1, (hwf y hy).2, fun hcon => absurd hcon (by simp [hd])⟩

/-- Every successful parse yields captures whose canonical field values are
well-formed. -/
theorem WFC_canonC {s : List Char} {f : Fields} {rest : List Char}
    (h : VERSION_PERMISSIVE_core s = some (f, rest)) : WFC (canonC f) := by
  unfold VERSION_PERMISSIVE_core at h
  rcases hp : parseEpoch (eatV (eatWs s)) with ⟨ep, s2⟩
  simp only [hp] at h
  rcases hr : parseRelease s2 with _ | ⟨rel, s3⟩ <;> simp only [hr] at h
  · cases h
  · rcases hpp : parsePre s3 with ⟨⟨pl, pn⟩, s4⟩
    simp only [hpp] at h
    rcases hpo : parsePost s4 with ⟨⟨pn1, pol, pn2⟩, s5⟩
    simp only [hpo] at h
    rcases hd : parseDev s5 with ⟨⟨dl, dn⟩, s6⟩
    simp only [hd] at h
    rcases hl : parseLocal s6 with ⟨loc, s7⟩
    simp only [hl] at h
    cases h
    refine ⟨?_, ?_, ?_⟩
    · simpa [canonC] using parseRelease_ne_nil hr
    · intro t n ht
      simp only [canonC, Option.map_eq_some'] at ht
      obtain ⟨t0, ht0, hteq⟩ := ht
      cases hteq
      exact parsePre_inv hpp t0 ht0
    · intro segs hsegs
      simp only [canonC, Option.map_eq_some'] at hsegs
      obtain ⟨raw, hraw, hseq⟩ := hsegs
      cases hseq
      rw [hraw] at hl
      exact processedSegs_wf (parseLocal_inv hl)

/-! ## The Canonicalizer output as a canonical rendering -/

/-- The string built by the Canonicalizer from any captures is exactly the
rendering of their canonical field values. -/
theorem componentsOf_flatten_eq (f : Fields) :
    (componentsOf f).flatten = renderC (canonC f) := by
  unfold componentsOf renderC
  simp only [List.flatten_append, List.flatten_cons, List.flatten_nil, List.append_nil]
  have hep : (epochComp f).flatten =
      (match (canonC f).epoch with | some e => natStr e ++ ['!'] | none => []) := by
    cases h : f.epoch <;> simp [epochComp, canonC, h]
  have hrc : releaseComp f = joinDots ((canonC f).release.map natStr) := by
    unfold releaseComp
    simp [canonC, List.map_map]
    rfl
  have hprc : (preComp f).flatten =
      (match (canonC f).pre with | some (t, n) => t ++ natStr n | none => []) := by
    cases h : f.pre_l <;> simp [preComp, canonC, h, canonN_natStr]
  have hpoc : (postComp f).flatten =
      (match (canonC f).post with
       | some n => ['.','p','o','s','t'] ++ natStr n
       | none => []) := by
    cases h1 : f.post_n1 with
    | some n1 => simp [postComp, canonC, h1]
    | none => cases h2 : f.post_l <;> simp [postComp, canonC, h1, h2]
  have hdc : (devComp f).flatten =
      (match (canonC f).dev with
       | some n => ['.','d','e','v'] ++ natStr n
       | none => []) := by
    cases h : f.dev_l <;> simp [devComp, canonC, h, canonN_natStr]
  have hlc : (localComp f).flatten = sLoc (canonC f) := by
    cases h : f.localv <;> simp [localComp, canonC, h, sLoc]
  rw [hep, hrc, hprc, hpoc, hdc, hlc]
  simp [sRel, sPre, sPost, sDev]

theorem mem_natStr {n : Nat} {c : Char} (h : c ∈ natStr n) : isLowerAlnum c = true := by
  have := natStr_all_digit n
  rw [List.all_eq_true] at this
  exact digit_alnum (this c h)

/-- Every character of a rendered canonical string is a lowercase
alphanumeric or one of `!`, `.`, `+`. -/
theorem renderC_chars (cf : CFields) (hwf : WFC cf) :
    ∀ c ∈ renderC cf, isLowerAlnum c = true ∨ c = '!' ∨ c = '.' ∨ c = '+' := by
  obtain ⟨hrel, hpre, hloc⟩ := hwf
  intro c hc
  unfold renderC at hc
  rw [List.mem_append] at hc
  rcases hc with hc | hc
  · cases h : cf.epoch with
    | none => rw [h] at hc; cases hc
    | some e =>
        rw [h] at hc
        rw [List.mem_append] at hc
        rcases hc with hc | hc
        · exact Or.inl (mem_natStr hc)
        · right; left; simpa using hc
  · unfold sRel at hc
    rw [List.mem_append] at hc
    rcases hc with hc | hc
    · rcases mem_joinDots hc with rfl | ⟨x, hx, hcx⟩
      · right; right; left; rfl
      · rw [List.mem_map] at hx
        obtain ⟨k, _, rfl⟩ := hx
        exact Or.inl (mem_natStr hcx)
    · unfold sPre at hc
      rw [List.mem_append] at hc
      rcases hc with hc | hc
      · cases h : cf.pre with
        | none => rw [h] at hc; cases hc
        | some tn =>
            match tn with
            | (t, n) =>
                rw [h] at hc
                rw [List.mem_append] at hc
                rcases hc with hc | hc
                · rcases hpre t n h with rfl | rfl | rfl <;>
                    · left
                      rcases (by simpa using hc : _) with rfl | rfl <;> decide
                · exact Or.inl (mem_natStr hc)
      · unfold sPost at hc
        rw [List.mem_append] at hc
        rcases hc with hc | hc
        · cases h : cf.post with
          | none => rw [h] at hc; cases hc
          | some n =>
              rw [h] at hc
              rw [List.mem_append] at hc
              rcases hc with hc | hc
              · rcases (by simpa using hc : _) with rfl | rfl | rfl | rfl | rfl
                · right; right; left; rfl
                all_goals left; decide
              · exact Or.inl (mem_natStr hc)
        · unfold sDev at hc
          rw [List.mem_append] at hc
          rcases hc with hc | hc
          · cases h : cf.dev with
            | none => rw [h] at hc; cases hc
            | some n =>
                rw [h] at hc
                rw [List.mem_append] at hc
                rcases hc with hc | hc
                · rcases (by simpa using hc : _) with rfl | rfl | rfl | rfl
                  · right; right; left; rfl
                  all_goals left; decide
                · exact Or.inl (mem_natStr hc)
          · unfold sLoc at hc
            cases h : cf.localSegs with
            | none => rw [h] at hc; cases hc
            | some segs =>
                rw [h] at hc
                rw [List.mem_cons] at hc
                rcases hc with rfl | hc
                · right; right; right; rfl
                · rcases mem_joinDots hc with rfl | ⟨x, hx, hcx⟩
                  · right; right; left; rfl
                  · left
                    have := ((hloc segs h).2 x hx).2.1
                    rw [List.all_eq_true] at this
                    exact this c hcx

theorem lowerChar_alnum {c : Char} (h : isLowerAlnum c = true) : lowerChar c = c := by
  unfold lowerChar
  split
  case isTrue hcond =>
    exfalso
    rw [Bool.and_eq_true, decide_eq_true_eq, decide_eq_true_eq] at hcond
    rw [isLowerAlnum, Bool.or_eq_true, Bool.and_eq_true, decide_eq_true_eq,
      decide_eq_true_eq] at h
    rcases h with ⟨h1, h2⟩ | hd
    · omega
    · rcases isDigit_elim hd with rfl|rfl|rfl|rfl|rfl|rfl|rfl|rfl|rfl|rfl <;>
        exact absurd hcond (by decide)
  case isFalse => rfl

theorem map_lowerChar_renderC (cf : CFields) (hwf : WFC cf) :
    (renderC cf).map lowerChar = renderC cf := by
  have : (renderC cf).map lowerChar = (renderC cf).map id := by
    apply List.map_congr_left
    intro c hc
    rcases renderC_chars cf hwf c hc with h | rfl | rfl | rfl
    · exact lowerChar_alnum h
    · rfl
    · rfl
    · rfl
  rw [this, List.map_id]

theorem match_some_core {x : List Char} {f : Fields}
    (h : VERSION_PERMISSIVE_match x = some f) :
    ∃ rest, VERSION_PERMISSIVE_core x = some (f, rest) := by
  unfold VERSION_PERMISSIVE_match at h
  rcases hc : VERSION_PERMISSIVE_core x with _ | ⟨f2, rest⟩ <;> rw [hc] at h
  · cases h
  · by_cases hw : (rest.dropWhile isWs).isEmpty = true
    · simp only [hw, if_true] at h
      cases h
      exact ⟨rest, rfl⟩
    · simp [hw] at h

/-- Normalization is idempotent on accepted inputs: the output of a
successful normalization is itself accepted and normalizes to itself. -/
theorem normalize_roundtrip {s t : String}
    (h : normalize_version false s = Except.ok t) :
    normalize_version false t = Except.ok t := by
  unfold normalize_version at h
  rcases hm : VERSION_PERMISSIVE_match (lowerStr s).data with _ | f <;>
    simp only [hm] at h
  · rw [if_neg (by simp)] at h
    cases h
  · obtain ⟨rest, hcore⟩ := match_some_core hm
    have hwf := WFC_canonC hcore
    have ht : t = String.mk (renderC (canonC f)) := by
      rw [← componentsOf_flatten_eq]
      exact (Except.ok.inj h).symm
    have hdata : t.data = renderC (canonC f) := by rw [ht]
    have hlow : lowerStr t = t := by
      unfold lowerStr
      rw [hdata, map_lowerChar_renderC _ hwf, ← hdata]
    unfold normalize_version
    rw [hlow]
    simp only [hdata, match_renderC (canonC f) hwf]
    rw [componentsOf_fieldsC (canonC f) hwf, ht]

/-! ## Anchoring: the unconsumed remainder is a suffix of the input -/

theorem eatWs_suffix (s : List Char) : eatWs s <:+ s := List.dropWhile_suffix _

theorem eatV_suffix (s : List Char) : eatV s <:+ s := by
  unfold eatV
  split
  · exact List.suffix_cons _ _
  · exact List.suffix_refl _

theorem eatSep_suffix (s : List Char) : eatSep s <:+ s := by
  unfold eatSep
  split
  · split
    · exact List.suffix_cons _ _
    · exact List.suffix_refl _
  · exact List.suffix_refl _

theorem parseEpoch_suffix (s : List Char) : (parseEpoch s).2 <:+ s := by
  rcases h : s.dropWhile isDigit with _ | ⟨c, r⟩ <;> simp only [parseEpoch, h]
  · exact List.suffix_refl s
  · split
    case h_1 x heq =>
      split
      · exact List.suffix_refl s
      · cases heq
        exact (List.suffix_cons _ _).trans (h ▸ List.dropWhile_suffix isDigit)
    case h_2 => exact List.suffix_refl s

theorem relTailF_suffix (fuel : Nat) (s : List Char) : (relTailF fuel s).2 <:+ s := by
  induction fuel generalizing s with
  | zero => exact List.suffix_refl s
  | succ fuel ih =>
      unfold relTailF
      split
      case h_1 c r =>
        split
        case isTrue hc =>
          simp only
          rcases hrec : relTailF fuel ((c :: r).dropWhile isDigit) with ⟨ds, r3⟩
          simp only [hrec]
          have h1 : r3 <:+ (c :: r).dropWhile isDigit := by
            have := ih ((c :: r).dropWhile isDigit)
            rwa [hrec] at this
          exact (h1.trans (List.dropWhile_suffix isDigit)).trans
            (List.suffix_cons '.' (c :: r))
        case isFalse => exact List.suffix_refl _
      case h_2 => exact List.suffix_refl _

theorem parseRelease_suffix {s : List Char} {rel : List (List Char)} {r : List Char}
    (h : parseRelease s = some (rel, r)) : r <:+ s := by
  by_cases hd : (s.takeWhile isDigit).isEmpty = true
  · simp only [parseRelease, hd, if_true] at h
    cases h
  · simp only [parseRelease, hd, if_false] at h
    rcases ht : relTailF (s.dropWhile isDigit).length (s.dropWhile isDigit)
      with ⟨ds, r2⟩
    rw [ht] at h
    simp only at h
    cases h
    have h1 := relTailF_suffix (s.dropWhile isDigit).length (s.dropWhile isDigit)
    rw [ht] at h1
    exact h1.trans (List.dropWhile_suffix isDigit)

theorem tagAt_suffix {s t r : List Char} (h : tagAt s = some (t, r)) : r <:+ s := by
  unfold tagAt at h
  split_ifs at h <;> cases h <;> exact List.drop_suffix _ _

theorem parsePre_suffix (s : List Char) : (parsePre s).2 <:+ s := by
  rcases htag : tagAt (eatSep s) with _ | ⟨tag, s2⟩ <;>
    simp only [parsePre, htag]
  · exact List.suffix_refl s
  · have h2 : s2 <:+ s := (tagAt_suffix htag).trans (eatSep_suffix s)
    have h3 : eatSep s2 <:+ s := (eatSep_suffix s2).trans h2
    split <;>
      exact (List.dropWhile_suffix isDigit).trans h3

theorem postTagAt_suffix {s t r : List Char} (h : postTagAt s = some (t, r)) : r <:+ s := by
  unfold postTagAt at h
  split_ifs at h <;> cases h <;> exact List.drop_suffix _ _

theorem parsePostTag_suffix (s : List Char) : (parsePostTag s).2 <:+ s := by
  rcases htag : postTagAt (eatSep s) with _ | ⟨tag, s2⟩ <;>
    simp only [parsePostTag, htag]
  · exact List.suffix_refl s
  · have h2 : s2 <:+ s := (postTagAt_suffix htag).trans (eatSep_suffix s)
    have h3 : eatSep s2 <:+ s := (eatSep_suffix s2).trans h2
    split <;>
      exact (List.dropWhile_suffix isDigit).trans h3

theorem parsePost_suffix (s : List Char) : (parsePost s).2 <:+ s := by
  unfold parsePost
  split
  case h_1 r =>
    by_cases hd : (r.takeWhile isDigit).isEmpty = true
    · simp only [hd, if_true]
      exact parsePostTag_suffix _
    · simp only [hd, if_false]
      exact (List.dropWhile_suffix isDigit).trans (List.suffix_cons _ _)
  case h_2 => exact parsePostTag_suffix _

theorem parseDev_suffix (s : List Char) : (parseDev s).2 <:+ s := by
  have h1 : (eatSep s).drop 3 <:+ s := (List.drop_suffix _ _).trans (eatSep_suffix s)
  have h2 : eatSep ((eatSep s).drop 3) <:+ s := (eatSep_suffix _).trans h1
  by_cases h : startsWith ['d','e','v'] (eatSep s) = true
  · simp only [parseDev, h, if_true]
    by_cases hn : (List.takeWhile isDigit (eatSep ((eatSep s).drop 3))).isEmpty = true <;>
      simp only [hn, if_true, if_false] <;>
      exact (List.dropWhile_suffix isDigit).trans h2
  · simp only [parseDev, h, if_false]
    exact List.suffix_refl _

theorem localTailF_suffix (fuel : Nat) (s : List Char) : (localTailF fuel s).2 <:+ s := by
  induction fuel generalizing s with
  | zero => exact List.suffix_refl s
  | succ fuel ih =>
      unfold localTailF
      split
      case h_1 c d r =>
        split
        case isTrue hc =>
          simp only
          rcases hrec : localTailF fuel ((d :: r).dropWhile isLowerAlnum) with ⟨more, r3⟩
          simp only [hrec]
          have h1 : r3 <:+ (d :: r).dropWhile isLowerAlnum := by
            have := ih ((d :: r).dropWhile isLowerAlnum)
            rwa [hrec] at this
          exact (h1.trans (List.dropWhile_suffix isLowerAlnum)).trans
            (List.suffix_cons c (d :: r))
        case isFalse => exact List.suffix_refl _
      case h_2 => exact List.suffix_refl _

theorem parseLocal_suffix (s : List Char) : (parseLocal s).2 <:+ s := by
  unfold parseLocal
  split
  case h_1 r0 =>
    by_cases hrun : (r0.takeWhile isLowerAlnum).isEmpty = true
    · simp only [hrun, if_true]
      exact List.suffix_refl _
    · simp only [hrun, if_false]
      rcases hrec : localTailF (r0.dropWhile isLowerAlnum).length
        (r0.dropWhile isLowerAlnum) with ⟨more, r2⟩
      simp only [hrec]
      have h1 : r2 <:+ r0.dropWhile isLowerAlnum := by
        have := localTailF_suffix (r0.dropWhile isLowerAlnum).length
          (r0.dropWhile isLowerAlnum)
        rwa [hrec] at this
      exact (h1.trans (List.dropWhile_suffix isLowerAlnum)).trans (List.suffix_cons _ _)
  case h_2 => exact List.suffix_refl _

/-- The remainder the grammar body leaves unconsumed is a trailing part of
the input string. -/
theorem core_suffix {s : List Char} {f : Fields} {rest : List Char}
    (h : VERSION_PERMISSIVE_core s = some (f, rest)) : rest <:+ s := by
  unfold VERSION_PERMISSIVE_core at h
  rcases hp : parseEpoch (eatV (eatWs s)) with ⟨ep, s2⟩
  simp only [hp] at h
  have hs2 : s2 <:+ s := by
    have := parseEpoch_suffix (eatV (eatWs s))
    rw [hp] at this
    exact this.trans ((eatV_suffix _).trans (eatWs_suffix s))
  rcases hr : parseRelease s2 with _ | ⟨rel, s3⟩ <;> simp only [hr] at h
  · cases h
  · have hs3 : s3 <:+ s := (parseRelease_suffix hr).trans hs2
    rcases hpp : parsePre s3 with ⟨⟨pl, pn⟩, s4⟩
    simp only [hpp] at h
    have hs4 : s4 <:+ s := by
      have := parsePre_suffix s3
      rw [hpp] at this
      exact this.trans hs3
    rcases hpo : parsePost s4 with ⟨⟨pn1, pol, pn2⟩, s5⟩
    simp only [hpo] at h
    have hs5 : s5 <:+ s := by
      have := parsePost_suffix s4
      rw [hpo] at this
      exact this.trans hs4
    rcases hd : parseDev s5 with ⟨⟨dl, dn⟩, s6⟩
    simp only [hd] at h
    have hs6 : s6 <:+ s := by
      have := parseDev_suffix s5
      rw [hd] at this
      exact this.trans hs5
    rcases hl : parseLocal s6 with ⟨loc, s7⟩
    simp only [hl] at h
    cases h
    have := parseLocal_suffix s6
    rw [hl] at this
    exact this.trans hs6

/-! ## Appending surrounding whitespace -/

theorem takeWhile_append_ws {p : Char → Bool} {l t : List Char}
    (hp : ∀ c, isWs c = true → p c = false) (ht : t.all isWs = true) :
    (l ++ t).takeWhile p = l.takeWhile p ∧
    (l ++ t).dropWhile p = l.dropWhile p ++ t := by
  induction l with
  | nil =>
      cases t with
      | nil => exact ⟨rfl, rfl⟩
      | cons c t2 =>
          rw [List.all_cons, Bool.and_eq_true] at ht
          simp [List.takeWhile_cons, List.dropWhile_cons, hp c ht.1]
  | cons a l ih =>
      by_cases ha : p a = true
      · simp [List.takeWhile_cons, List.dropWhile_cons, ha, ih.1, ih.2]
      · simp [List.takeWhile_cons, List.dropWhile_cons, ha]

theorem dropWhile_append_cons {p : Char → Bool} {l t r : List Char} {c : Char}
    (h : l.dropWhile p = c :: r) :
    (l ++ t).dropWhile p = c :: (r ++ t) := by
  induction l with
  | nil => simp at h
  | cons a l ih =>
      rw [List.dropWhile_cons] at h
      by_cases ha : p a = true
      · rw [if_pos ha] at h
        simp [List.dropWhile_cons, ha, ih h]
      · rw [if_neg ha] at h
        cases h
        simp [List.dropWhile_cons, ha]

theorem dropWhile_append_nil {p : Char → Bool} {l t : List Char}
    (h : l.dropWhile p = []) :
    (l ++ t).dropWhile p = t.dropWhile p := by
  induction l with
  | nil => rfl
  | cons a l ih =>
      rw [List.dropWhile_cons] at h
      by_cases ha : p a = true
      · rw [if_pos ha] at h
        simp [List.dropWhile_cons, ha, ih h]
      · rw [if_neg ha] at h
        cases h

theorem dropWhile_prefix_all {p : Char → Bool} {w l : List Char}
    (h : w.all p = true) : (w ++ l).dropWhile p = l.dropWhile p := by
  induction w with
  | nil => rfl
  | cons a w ih =>
      rw [List.all_cons, Bool.and_eq_true] at h
      simp [List.dropWhile_cons, h.1, ih h.2]

theorem eatV_cons_ne {c : Char} {r : List Char} (h : c ≠ 'v') :
    eatV (c :: r) = c :: r := by
  unfold eatV
  split
  case h_1 x heq =>
    cases heq
    exact absurd rfl h
  case h_2 => rfl

theorem eatV_append {l t : List Char} (ht : t.all isWs = true) :
    eatV (l ++ t) = eatV l ++ t := by
  cases l with
  | nil =>
      cases t with
      | nil => rfl
      | cons c t2 =>
          rw [List.all_cons, Bool.and_eq_true] at ht
          simp only [List.nil_append]
          exact eatV_cons_ne (ws_ne ht.1 'v' (by decide))
  | cons c r =>
      by_cases hc : c = 'v'
      · subst hc; rfl
      · simp only [List.cons_append]
        rw [eatV_cons_ne hc, eatV_cons_ne hc]
        rfl

theorem eatSep_append {l t : List Char} (ht : t.all isWs = true) :
    eatSep (l ++ t) = eatSep l ++ t := by
  cases l with
  | nil =>
      cases t with
      | nil => rfl
      | cons c t2 =>
          rw [List.all_cons, Bool.and_eq_true] at ht
          simp only [List.nil_append]
          simp [eatSep, ws_not_sep ht.1]
  | cons c r =>
      by_cases hc : isSep c = true <;> simp [eatSep, hc]

theorem parseEpoch_append {l t : List Char} (ht : t.all isWs = true) :
    parseEpoch (l ++ t) = ((parseEpoch l).1, (parseEpoch l).2 ++ t) := by
  have hws : ∀ c, isWs c = true → isDigit c = false := fun c h => ws_not_digit h
  have htw := (takeWhile_append_ws hws ht (l := l)).1
  rcases hdw : l.dropWhile isDigit with _ | ⟨c, r⟩
  · have hdw2 := dropWhile_append_nil (t := t) hdw
    cases t with
    | nil => simp [parseEpoch, hdw, hdw2]
    | cons c t2 =>
        rw [List.all_cons, Bool.and_eq_true] at ht
        simp only [parseEpoch, htw, hdw, hdw2, List.dropWhile_cons,
          ws_not_digit ht.1, Bool.false_eq_true, if_false]
        split
        next x heq =>
          cases heq
          exact absurd ht.1 (by decide)
        next => rfl
  · have hdw2 := dropWhile_append_cons (t := t) hdw
    by_cases hc : c = '!'
    · subst hc
      simp only [parseEpoch, htw, hdw, hdw2]
      split <;> rfl
    · simp only [parseEpoch, htw, hdw, hdw2]
      split
      next x heq =>
        cases heq
        exact absurd rfl hc
      next =>
        split
        next x heq =>
          cases heq
          exact absurd rfl hc
        next => rfl

theorem relTailF_not_dot {fuel : Nat} {c : Char} {r : List Char} (h : c ≠ '.') :
    relTailF fuel (c :: r) = ([], c :: r) := by
  cases fuel with
  | zero => rfl
  | succ fuel =>
      unfold relTailF
      split
      case h_1 x heq =>
        rw [List.cons.injEq] at heq
        exact absurd heq.1 h
      case h_2 => rfl

theorem relTailF_dot_nil {fuel : Nat} : relTailF fuel ['.'] = ([], ['.']) := by
  cases fuel <;> rfl

theorem relTailF_dot_notdigit {fuel : Nat} {d : Char} {r : List Char}
    (h : isDigit d = false) :
    relTailF fuel ('.' :: d :: r) = ([], '.' :: d :: r) := by
  cases fuel with
  | zero => rfl
  | succ fuel => simp [relTailF, h]

theorem relTailF_dot_digit {fuel : Nat} {d : Char} {r : List Char}
    (h : isDigit d = true) :
    relTailF (fuel + 1) ('.' :: d :: r) =
      ((d :: r).takeWhile isDigit :: (relTailF fuel ((d :: r).dropWhile isDigit)).1,
       (relTailF fuel ((d :: r).dropWhile isDigit)).2) := by
  simp [relTailF, h]

theorem relTailF_fuel {fuel1 fuel2 : Nat} (s : List Char)
    (h1 : s.length ≤ fuel1) (h2 : s.length ≤ fuel2) :
    relTailF fuel1 s = relTailF fuel2 s := by
  induction fuel1 generalizing s fuel2 with
  | zero =>
      have : s = [] := by
        cases s with
        | nil => rfl
        | cons c r => simp at h1
      subst this
      cases fuel2 <;> rfl
  | succ fuel1 ih =>
      match s with
      | [] => cases fuel2 <;> rfl
      | [c] =>
          by_cases hc : c = '.'
          · subst hc
            rw [relTailF_dot_nil]
            rw [relTailF_dot_nil]
          · rw [relTailF_not_dot hc, relTailF_not_dot hc]
      | c :: d :: r =>
          by_cases hc : c = '.'
          · subst hc
            by_cases hd : isDigit d = true
            · match fuel2, h2 with
              | fuel2 + 1, h2 =>
                  rw [relTailF_dot_digit hd, relTailF_dot_digit hd]
                  have hlen : ((d :: r).dropWhile isDigit).length ≤ r.length := by
                    rw [List.dropWhile_cons, if_pos hd]
                    exact List.Sublist.length_le (List.dropWhile_sublist isDigit)
                  simp only [List.length_cons] at h1 h2
                  rw [@ih fuel2 ((d :: r).dropWhile isDigit) (by omega) (by omega)]
            · have hd2 : isDigit d = false := by simpa using hd
              rw [relTailF_dot_notdigit hd2, relTailF_dot_notdigit hd2]
          · rw [relTailF_not_dot hc, relTailF_not_dot hc]

theorem relTailF_append {fuel : Nat} {l t : List Char} (ht : t.all isWs = true)
    (hlen : (l ++ t).length ≤ fuel) :
    relTailF fuel (l ++ t) = ((relTailF l.length l).1, (relTailF l.length l).2 ++ t) := by
  induction fuel generalizing l with
  | zero =>
      have hl : l = [] := by
        cases l with
        | nil => rfl
        | cons c r => simp at hlen
      have ht2 : t = [] := by
        cases t with
        | nil => rfl
        | cons c r => rw [hl] at hlen; simp at hlen
      subst hl; subst ht2
      rfl
  | succ fuel ih =>
      match l with
      | [] =>
          simp only [List.nil_append]
          cases t with
          | nil => rfl
          | cons c t2 =>
              rw [List.all_cons, Bool.and_eq_true] at ht
              rw [relTailF_not_dot (ws_ne ht.1 '.' (by decide))]
              rfl
      | [c] =>
          by_cases hc : c = '.'
          · subst hc
            cases t with
            | nil => simp [relTailF_dot_nil]
            | cons d t2 =>
                rw [List.all_cons, Bool.and_eq_true] at ht
                simp only [List.cons_append, List.nil_append]
                rw [relTailF_dot_notdigit (ws_not_digit ht.1), relTailF_dot_nil]
                rfl
          · simp only [List.cons_append, List.nil_append]
            rw [relTailF_not_dot hc, relTailF_not_dot hc]
            rfl
      | c :: d :: r =>
          by_cases hc : c = '.'
          · subst hc
            by_cases hd : isDigit d = true
            · simp only [List.cons_append]
              rw [relTailF_dot_digit hd]
              have hws : ∀ a, isWs a = true → isDigit a = false :=
                fun a h => ws_not_digit h
              have htw := (takeWhile_append_ws hws ht (l := d :: r)).1
              have hdw := (takeWhile_append_ws hws ht (l := d :: r)).2
              simp only [List.cons_append] at htw hdw
              rw [htw, hdw]
              have hsub : ((d :: r).dropWhile isDigit).length ≤ r.length := by
                rw [List.dropWhile_cons, if_pos hd]
                exact List.Sublist.length_le (List.dropWhile_sublist isDigit)
              simp only [List.length_cons, List.length_append] at hlen
              rw [@ih ((d :: r).dropWhile isDigit) (by
                simp only [List.length_append]
                omega)]
              rw [show ('.' :: d :: r : List Char).length = r.length + 2 by simp]
              rw [relTailF_dot_digit hd]
              rw [@relTailF_fuel (r.length + 1) (((d :: r).dropWhile isDigit).length)
                ((d :: r).dropWhile isDigit) (by omega) (Nat.le_refl _)]
            · have hd2 : isDigit d = false := by simpa using hd
              simp only [List.cons_append]
              rw [relTailF_dot_notdigit hd2, relTailF_dot_notdigit hd2]
              rfl
          · simp only [List.cons_append]
            rw [relTailF_not_dot hc, relTailF_not_dot hc]
            rfl

theorem localTailF_single {fuel : Nat} {c : Char} : localTailF fuel [c] = ([], [c]) := by
  cases fuel <;> rfl

theorem localTailF_cond_false {fuel : Nat} {c d : Char} {r : List Char}
    (h : (isSep c && isLowerAlnum d) = false) :
    localTailF fuel (c :: d :: r) = ([], c :: d :: r) := by
  cases fuel with
  | zero => rfl
  | succ fuel => simp [localTailF, h]

theorem localTailF_cond_true {fuel : Nat} {c d : Char} {r : List Char}
    (h : (isSep c && isLowerAlnum d) = true) :
    localTailF (fuel + 1) (c :: d :: r) =
      (c :: ((d :: r).takeWhile isLowerAlnum ++
        (localTailF fuel ((d :: r).dropWhile isLowerAlnum)).1),
       (localTailF fuel ((d :: r).dropWhile isLowerAlnum)).2) := by
  simp [localTailF, h]

theorem localTailF_fuel {fuel1 fuel2 : Nat} (s : List Char)
    (h1 : s.length ≤ fuel1) (h2 : s.length ≤ fuel2) :
    localTailF fuel1 s = localTailF fuel2 s := by
  induction fuel1 generalizing s fuel2 with
  | zero =>
      have : s = [] := by
        cases s with
        | nil => rfl
        | cons c r => simp at h1
      subst this
      cases fuel2 <;> rfl
  | succ fuel1 ih =>
      match s with
      | [] => cases fuel2 <;> rfl
      | [c] => rw [localTailF_single, localTailF_single]
      | c :: d :: r =>
          by_cases hcd : (isSep c && isLowerAlnum d) = true
          · match fuel2, h2 with
            | fuel2 + 1, h2 =>
                rw [localTailF_cond_true hcd, localTailF_cond_true hcd]
                have hlen : ((d :: r).dropWhile isLowerAlnum).length ≤ r.length := by
                  rw [Bool.and_eq_true] at hcd
                  rw [List.dropWhile_cons, if_pos hcd.2]
                  exact List.Sublist.length_le (List.dropWhile_sublist isLowerAlnum)
                simp only [List.length_cons] at h1 h2
                rw [@ih fuel2 ((d :: r).dropWhile isLowerAlnum) (by omega) (by omega)]
          · have hcd2 : (isSep c && isLowerAlnum d) = false := by simpa using hcd
            rw [localTailF_cond_false hcd2, localTailF_cond_false hcd2]

theorem localTailF_append {fuel : Nat} {l t : List Char} (ht : t.all isWs = true)
    (hlen : (l ++ t).length ≤ fuel) :
    localTailF fuel (l ++ t) =
      ((localTailF l.length l).1, (localTailF l.length l).2 ++ t) := by
  induction fuel generalizing l with
  | zero =>
      have hl : l = [] := by
        cases l with
        | nil => rfl
        | cons c r => simp at hlen
      have ht2 : t = [] := by
        cases t with
        | nil => rfl
        | cons c r => rw [hl] at hlen; simp at hlen
      subst hl; subst ht2
      rfl
  | succ fuel ih =>
      match l with
      | [] =>
          simp only [List.nil_append]
          cases t with
          | nil => rfl
          | cons c t2 =>
              cases t2 with
              | nil => rw [localTailF_single]; rfl
              | cons d t3 =>
                  rw [List.all_cons, Bool.and_eq_true] at ht
                  rw [localTailF_cond_false (by rw [ws_not_sep ht.1]; rfl)]
                  rfl
      | [c] =>
          simp only [List.cons_append, List.nil_append]
          cases t with
          | nil => rw [localTailF_single, localTailF_single]; rfl
          | cons d t2 =>
              rw [List.all_cons, Bool.and_eq_true] at ht
              rw [localTailF_cond_false (by rw [ws_not_alnum ht.1]; simp)]
              rw [localTailF_single]
              rfl
      | c :: d :: r =>
          by_cases hcd : (isSep c && isLowerAlnum d) = true
          · simp only [List.cons_append]
            rw [localTailF_cond_true hcd]
            have hws : ∀ a, isWs a = true → isLowerAlnum a = false :=
              fun a h => ws_not_alnum h
            have htw := (takeWhile_append_ws hws ht (l := d :: r)).1
            have hdw := (takeWhile_append_ws hws ht (l := d :: r)).2
            simp only [List.cons_append] at htw hdw
            rw [htw, hdw]
            have hsub : ((d :: r).dropWhile isLowerAlnum).length ≤ r.length := by
              rw [Bool.and_eq_true] at hcd
              rw [List.dropWhile_cons, if_pos hcd.2]
              exact List.Sublist.length_le (List.dropWhile_sublist isLowerAlnum)
            simp only [List.length_cons, List.length_append] at hlen
            rw [@ih ((d :: r).dropWhile isLowerAlnum) (by
              simp only [List.length_append]
              omega)]
            rw [show (c :: d :: r : List Char).length = r.length + 2 by simp]
            rw [localTailF_cond_true hcd]
            rw [@localTailF_fuel (r.length + 1) (((d :: r).dropWhile isLowerAlnum).length)
              ((d :: r).dropWhile isLowerAlnum) (by omega) (Nat.le_refl _)]
          · have hcd2 : (isSep c && isLowerAlnum d) = false := by simpa using hcd
            simp only [List.cons_append]
            rw [localTailF_cond_false hcd2, localTailF_cond_false hcd2]
            rfl

theorem startsWith_length {tag l : List Char} (h : startsWith tag l = true) :
    tag.length ≤ l.length := by
  induction tag generalizing l with
  | nil => simp
  | cons a tg ih =>
      cases l with
      | nil => cases h
      | cons b l2 =>
          rw [startsWith, Bool.and_eq_true] at h
          have := ih h.2
          simp only [List.length_cons]
          omega

theorem startsWith_cons_ne {a c : Char} {tg r : List Char} (h : a ≠ c) :
    startsWith (a :: tg) (c :: r) = false := by
  rw [startsWith]
  simp [h]

theorem startsWith_append {tag l t : List Char}
    (htag : tag.all (fun c => !isWs c) = true) (ht : t.all isWs = true) :
    startsWith tag (l ++ t) = startsWith tag l := by
  induction tag generalizing l with
  | nil => rfl
  | cons a tg ih =>
      cases l with
      | nil =>
          simp only [List.nil_append]
          cases t with
          | nil => rfl
          | cons c t2 =>
              rw [List.all_cons, Bool.and_eq_true] at ht htag
              have hne : a ≠ c := by
                intro he
                rw [he] at htag
                obtain ⟨h1, _⟩ := htag
                rw [ht.1] at h1
                simp at h1
              rw [startsWith_cons_ne hne]
              rfl
      | cons b l2 =>
          rw [List.all_cons, Bool.and_eq_true] at htag
          simp only [List.cons_append]
          rw [startsWith, startsWith, ih htag.2]

theorem tagAt_append_none {l t : List Char} (ht : t.all isWs = true)
    (h : tagAt l = none) : tagAt (l ++ t) = none := by
  unfold tagAt at h ⊢
  rw [startsWith_append (by decide) ht, startsWith_append (by decide) ht,
    startsWith_append (by decide) ht, startsWith_append (by decide) ht,
    startsWith_append (by decide) ht, startsWith_append (by decide) ht,
    startsWith_append (by decide) ht, startsWith_append (by decide) ht]
  split_ifs at h ⊢ <;> first | rfl | cases h

theorem tagAt_append_some {l t tg r : List Char} (ht : t.all isWs = true)
    (h : tagAt l = some (tg, r)) : tagAt (l ++ t) = some (tg, r ++ t) := by
  unfold tagAt at h ⊢
  rw [startsWith_append (by decide) ht, startsWith_append (by decide) ht,
    startsWith_append (by decide) ht, startsWith_append (by decide) ht,
    startsWith_append (by decide) ht, startsWith_append (by decide) ht,
    startsWith_append (by decide) ht, startsWith_append (by decide) ht]
  split_ifs at h ⊢ <;> cases h <;>
    rw [List.drop_append_of_le_length (by
      have := startsWith_length (by assumption)
      simpa using this)]

theorem postTagAt_append_none {l t : List Char} (ht : t.all isWs = true)
    (h : postTagAt l = none) : postTagAt (l ++ t) = none := by
  unfold postTagAt at h ⊢
  rw [startsWith_append (by decide) ht, startsWith_append (by decide) ht,
    startsWith_append (by decide) ht]
  split_ifs at h ⊢ <;> first | rfl | cases h

theorem postTagAt_append_some {l t tg r : List Char} (ht : t.all isWs = true)
    (h : postTagAt l = some (tg, r)) : postTagAt (l ++ t) = some (tg, r ++ t) := by
  unfold postTagAt at h ⊢
  rw [startsWith_append (by decide) ht, startsWith_append (by decide) ht,
    startsWith_append (by decide) ht]
  split_ifs at h ⊢ <;> cases h <;>
    rw [List.drop_append_of_le_length (by
      have := startsWith_length (by assumption)
      simpa using this)]

theorem parsePre_append {l t : List Char} (ht : t.all isWs = true) :
    parsePre (l ++ t) = ((parsePre l).1, (parsePre l).2 ++ t) := by
  have hws : ∀ a, isWs a = true → isDigit a = false := fun a h => ws_not_digit h
  rcases htag : tagAt (eatSep l) with _ | ⟨tag, s2⟩
  · simp only [parsePre, eatSep_append ht, htag, tagAt_append_none ht htag]
  · simp only [parsePre, eatSep_append ht, htag, tagAt_append_some ht htag,
      (takeWhile_append_ws hws ht).1, (takeWhile_append_ws hws ht).2]
    split <;> rfl

theorem parsePostTag_append {l t : List Char} (ht : t.all isWs = true) :
    parsePostTag (l ++ t) = ((parsePostTag l).1, (parsePostTag l).2 ++ t) := by
  have hws : ∀ a, isWs a = true → isDigit a = false := fun a h => ws_not_digit h
  rcases htag : postTagAt (eatSep l) with _ | ⟨tag, s2⟩
  · simp only [parsePostTag, eatSep_append ht, htag, postTagAt_append_none ht htag]
  · simp only [parsePostTag, eatSep_append ht, htag, postTagAt_append_some ht htag,
      (takeWhile_append_ws hws ht).1, (takeWhile_append_ws hws ht).2]
    split <;> rfl

theorem parsePost_not_dash {c : Char} {r : List Char} (h : c ≠ '-') :
    parsePost (c :: r) = parsePostTag (c :: r) := by
  unfold parsePost
  split
  next x heq =>
    rw [List.cons.injEq] at heq
    exact absurd heq.1 h
  next => rfl

theorem parsePost_dash_eq (r : List Char) :
    parsePost ('-' :: r) =
      if (r.takeWhile isDigit).isEmpty = true then parsePostTag ('-' :: r)
      else ((some (r.takeWhile isDigit), none, none), r.dropWhile isDigit) := rfl

theorem parsePost_append {l t : List Char} (ht : t.all isWs = true) :
    parsePost (l ++ t) = ((parsePost l).1, (parsePost l).2 ++ t) := by
  have hws : ∀ a, isWs a = true → isDigit a = false := fun a h => ws_not_digit h
  cases l with
  | nil =>
      simp only [List.nil_append]
      cases t with
      | nil => rfl
      | cons c t2 =>
          rw [List.all_cons, Bool.and_eq_true] at ht
          rw [parsePost_not_dash (ws_ne ht.1 '-' (by decide))]
          rw [show parsePost ([] : List Char) = parsePostTag [] from rfl]
          have := parsePostTag_append (l := [])
            (t := c :: t2) (by rw [List.all_cons]; simp [ht.1, ht.2])
          simpa using this
  | cons c r =>
      by_cases hc : c = '-'
      · subst hc
        simp only [List.cons_append]
        rw [parsePost_dash_eq, parsePost_dash_eq]
        rw [(takeWhile_append_ws hws ht).1]
        by_cases hd : (r.takeWhile isDigit).isEmpty = true
        · rw [if_pos hd, if_pos hd]
          rw [show ('-' :: (r ++ t) : List Char) = ('-' :: r) ++ t from rfl]
          exact parsePostTag_append ht
        · rw [if_neg hd, if_neg hd, (takeWhile_append_ws hws ht).2]
      · simp only [List.cons_append]
        rw [parsePost_not_dash hc, parsePost_not_dash hc]
        rw [show (c :: (r ++ t) : List Char) = (c :: r) ++ t from rfl]
        exact parsePostTag_append ht

theorem parseDev_append {l t : List Char} (ht : t.all isWs = true) :
    parseDev (l ++ t) = ((parseDev l).1, (parseDev l).2 ++ t) := by
  have hws : ∀ a, isWs a = true → isDigit a = false := fun a h => ws_not_digit h
  have hsw : ∀ u : List Char,
      startsWith ['d','e','v'] (u ++ t) = startsWith ['d','e','v'] u :=
    fun u => startsWith_append (by decide) ht
  by_cases hdev : startsWith ['d','e','v'] (eatSep l) = true
  · have h3 : 3 ≤ (eatSep l).length := by
      have := startsWith_length hdev
      simpa using this
    simp only [parseDev, eatSep_append ht, hsw, hdev, if_true,
      List.drop_append_of_le_length h3,
      (takeWhile_append_ws hws ht).1, (takeWhile_append_ws hws ht).2]
    split <;> rfl
  · have hdev2 : startsWith ['d','e','v'] (eatSep l) = false := by simpa using hdev
    simp only [parseDev, eatSep_append ht, hsw, hdev2, Bool.false_eq_true, if_false]

theorem parseLocal_not_plus {c : Char} {r : List Char} (h : c ≠ '+') :
    parseLocal (c :: r) = (none, c :: r) := by
  unfold parseLocal
  split
  next x heq =>
    rw [List.cons.injEq] at heq
    exact absurd heq.1 h
  next => rfl

theorem parseLocal_plus_eq (r : List Char) :
    parseLocal ('+' :: r) =
      if (r.takeWhile isLowerAlnum).isEmpty = true then (none, '+' :: r)
      else
        (some (r.takeWhile isLowerAlnum ++
           (localTailF (r.dropWhile isLowerAlnum).length (r.dropWhile isLowerAlnum)).1),
         (localTailF (r.dropWhile isLowerAlnum).length (r.dropWhile isLowerAlnum)).2) := rfl

theorem parseLocal_append {l t : List Char} (ht : t.all isWs = true) :
    parseLocal (l ++ t) = ((parseLocal l).1, (parseLocal l).2 ++ t) := by
  cases l with
  | nil =>
      simp only [List.nil_append]
      cases t with
      | nil => rfl
      | cons c t2 =>
          rw [List.all_cons, Bool.and_eq_true] at ht
          rw [parseLocal_not_plus (ws_ne ht.1 '+' (by decide))]
          rfl
  | cons c r =>
      by_cases hc : c = '+'
      · subst hc
        have hws : ∀ a, isWs a = true → isLowerAlnum a = false :=
          fun a h => ws_not_alnum h
        simp only [List.cons_append]
        rw [parseLocal_plus_eq, parseLocal_plus_eq, (takeWhile_append_ws hws ht).1]
        by_cases hd : (r.takeWhile isLowerAlnum).isEmpty = true
        · rw [if_pos hd, if_pos hd]
          rfl
        · rw [if_neg hd, if_neg hd, (takeWhile_append_ws hws ht).2,
            localTailF_append ht (Nat.le_refl _)]
      · simp only [List.cons_append]
        rw [parseLocal_not_plus hc, parseLocal_not_plus (r := r) hc]
        rfl

theorem parseRelease_append {l t : List Char} (ht : t.all isWs = true) :
    parseRelease (l ++ t) =
      match parseRelease l with
      | none => none
      | some (rel, r) => some (rel, r ++ t) := by
  have hws : ∀ a, isWs a = true → isDigit a = false := fun a h => ws_not_digit h
  by_cases hd : (l.takeWhile isDigit).isEmpty = true
  · simp only [parseRelease, (takeWhile_append_ws hws ht (l := l)).1, hd, if_true]
  · simp only [parseRelease, (takeWhile_append_ws hws ht (l := l)).1, hd,
      Bool.false_eq_true, if_false]
    rw [(takeWhile_append_ws hws ht (l := l)).2]
    rcases hrt : relTailF (l.dropWhile isDigit).length (l.dropWhile isDigit)
      with ⟨ds, r2⟩
    rw [relTailF_append ht (Nat.le_refl _), hrt]

theorem core_of_eatWs_nil {l : List Char} (h : eatWs l = []) :
    VERSION_PERMISSIVE_core l = none := by
  unfold VERSION_PERMISSIVE_core
  rw [h]
  rfl

theorem dropWhile_all_nil {p : Char → Bool} {t : List Char} (h : t.all p = true) :
    t.dropWhile p = [] := by
  induction t with
  | nil => rfl
  | cons c t ih =>
      rw [List.all_cons, Bool.and_eq_true] at h
      rw [List.dropWhile_cons, if_pos h.1, ih h.2]

/-- Appending trailing whitespace to a string the grammar body accepts leaves
all captures unchanged and appends the whitespace to the remainder. -/
theorem core_append {l t : List Char} {f : Fields} {rest : List Char}
    (ht : t.all isWs = true)
    (h : VERSION_PERMISSIVE_core l = some (f, rest)) :
    VERSION_PERMISSIVE_core (l ++ t) = some (f, rest ++ t) := by
  rcases hdw : eatWs l with _ | ⟨c, r⟩
  · rw [core_of_eatWs_nil hdw] at h
    cases h
  · have e0 : eatWs (l ++ t) = eatWs l ++ t := by
      rw [show eatWs (l ++ t) = (l ++ t).dropWhile isWs from rfl,
        dropWhile_append_cons hdw, hdw]
      rfl
    unfold VERSION_PERMISSIVE_core at h ⊢
    simp only [e0, eatV_append ht, parseEpoch_append ht]
    rcases hp : parseEpoch (eatV (eatWs l)) with ⟨ep, s2⟩
    simp only [hp] at h ⊢
    simp only [parseRelease_append ht]
    rcases hr : parseRelease s2 with _ | ⟨rel, s3⟩ <;> simp only [hr] at h ⊢
    · cases h
    · simp only [parsePre_append ht]
      rcases hpp : parsePre s3 with ⟨⟨pl, pn⟩, s4⟩
      simp only [hpp] at h ⊢
      simp only [parsePost_append ht]
      rcases hpo : parsePost s4 with ⟨⟨pn1, pol, pn2⟩, s5⟩
      simp only [hpo] at h ⊢
      simp only [parseDev_append ht]
      rcases hd : parseDev s5 with ⟨⟨dl, dn⟩, s6⟩
      simp only [hd] at h ⊢
      simp only [parseLocal_append ht]
      rcases hl : parseLocal s6 with ⟨loc, s7⟩
      simp only [hl] at h ⊢
      cases h
      rfl

/-- Appending trailing whitespace does not change a successful match. -/
theorem match_append_ws {l t : List Char} {f : Fields} (ht : t.all isWs = true)
    (h : VERSION_PERMISSIVE_match l = some f) :
    VERSION_PERMISSIVE_match (l ++ t) = some f := by
  obtain ⟨rest, hcore⟩ := match_some_core h
  have hws2 : (rest.dropWhile isWs).isEmpty = true := by
    unfold VERSION_PERMISSIVE_match at h
    rw [hcore] at h
    by_cases hw : (rest.dropWhile isWs).isEmpty = true
    · exact hw
    · simp [hw] at h
  unfold VERSION_PERMISSIVE_match
  rw [core_append ht hcore]
  rw [List.isEmpty_eq_true] at hws2
  simp only [dropWhile_append_nil hws2, dropWhile_all_nil ht, List.isEmpty_nil, if_true]

/-- Prepending leading whitespace does not change the match at all. -/
theorem match_prepend_ws {w l : List Char} (hw : w.all isWs = true) :
    VERSION_PERMISSIVE_match (w ++ l) = VERSION_PERMISSIVE_match l := by
  unfold VERSION_PERMISSIVE_match VERSION_PERMISSIVE_core
  rw [show eatWs (w ++ l) = eatWs l from dropWhile_prefix_all hw]

/-! ## Further parser invariants and convenience lemmas -/

theorem all_of_dropWhile_nil {p : Char → Bool} {l : List Char}
    (h : l.dropWhile p = []) : l.all p = true := by
  induction l with
  | nil => rfl
  | cons c r ih =>
      rw [List.dropWhile_cons] at h
      by_cases hc : p c = true
      · rw [if_pos hc] at h
        rw [List.all_cons, hc, ih h]
        rfl
      · rw [if_neg hc] at h
        cases h

theorem lowerChar_ws {c : Char} (h : isWs c = true) : lowerChar c = c := by
  rcases isWs_elim h with rfl | rfl | rfl | rfl | rfl | rfl <;> rfl

theorem all_takeWhile_p {p : Char → Bool} (l : List Char) :
    (l.takeWhile p).all p = true := by
  induction l with
  | nil => rfl
  | cons c r ih =>
      rw [List.takeWhile_cons]
      by_cases hc : p c = true
      · rw [if_pos hc, List.all_cons, hc, ih]
        rfl
      · rw [if_neg hc]
        rfl

theorem relTailF_digits (fuel : Nat) (s : List Char) :
    ∀ x ∈ (relTailF fuel s).1, x ≠ [] ∧ x.all isDigit = true := by
  induction fuel generalizing s with
  | zero => intro x hx; simp [relTailF] at hx
  | succ fuel ih =>
      intro x hx
      match s with
      | [] => simp [relTailF] at hx
      | [c] =>
          rcases hc : decide (c = '.') with _ | _
          · rw [relTailF_not_dot (by simpa using hc)] at hx
            simp at hx
          · have : c = '.' := by simpa using hc
            subst this
            rw [relTailF_dot_nil] at hx
            simp at hx
      | c :: d :: r =>
          by_cases hc : c = '.'
          · subst hc
            by_cases hd : isDigit d = true
            · rw [relTailF_dot_digit hd] at hx
              simp only [List.mem_cons] at hx
              rcases hx with rfl | hx
              · constructor
                · rw [List.takeWhile_cons, if_pos hd]
                  simp
                · exact all_takeWhile_p _
              · exact ih _ x hx
            · rw [relTailF_dot_notdigit (by simpa using hd)] at hx
              simp at hx
          · rw [relTailF_not_dot hc] at hx
            simp at hx

theorem parseRelease_digits {s : List Char} {rel : List (List Char)} {r : List Char}
    (h : parseRelease s = some (rel, r)) :
    ∀ x ∈ rel, x ≠ [] ∧ x.all isDigit = true := by
  by_cases hd : (s.takeWhile isDigit).isEmpty = true
  · simp only [parseRelease, hd, if_true] at h
    cases h
  · simp only [parseRelease, hd, if_false] at h
    rcases ht : relTailF (s.dropWhile isDigit).length (s.dropWhile isDigit)
      with ⟨ds, r2⟩
    rw [ht] at h
    simp only at h
    cases h
    intro x hx
    rcases List.mem_cons.1 hx with rfl | hx2
    · refine ⟨?_, all_takeWhile_p _⟩
      intro he
      rw [he] at hd
      exact hd rfl
    · have := relTailF_digits (s.dropWhile isDigit).length (s.dropWhile isDigit) x
      rw [ht] at this
      exact this hx2

/-- Every successful match produces a nonempty release list whose components
are nonempty digit strings. -/
theorem match_release_digits {l : List Char} {f : Fields}
    (h : VERSION_PERMISSIVE_match l = some f) :
    f.release ≠ [] ∧ ∀ x ∈ f.release, x ≠ [] ∧ x.all isDigit = true := by
  obtain ⟨rest, hcore⟩ := match_some_core h
  unfold VERSION_PERMISSIVE_core at hcore
  rcases hp : parseEpoch (eatV (eatWs l)) with ⟨ep, s2⟩
  simp only [hp] at hcore
  rcases hr : parseRelease s2 with _ | ⟨rel, s3⟩ <;> simp only [hr] at hcore
  · cases hcore
  · rcases hpp : parsePre s3 with ⟨⟨pl, pn⟩, s4⟩
    simp only [hpp] at hcore
    rcases hpo : parsePost s4 with ⟨⟨pn1, pol, pn2⟩, s5⟩
    simp only [hpo] at hcore
    rcases hd : parseDev s5 with ⟨⟨dl, dn⟩, s6⟩
    simp only [hd] at hcore
    rcases hl : parseLocal s6 with ⟨loc, s7⟩
    simp only [hl] at hcore
    cases hcore
    exact ⟨parseRelease_ne_nil hr, parseRelease_digits hr⟩

/-- The matched pre-release spelling is one of the eight surface spellings. -/
theorem tagAt_mem {s t r : List Char} (h : tagAt s = some (t, r)) :
    t = ['a'] ∨ t = ['a','l','p','h','a'] ∨ t = ['b'] ∨ t = ['b','e','t','a'] ∨
    t = ['r','c'] ∨ t = ['c'] ∨ t = ['p','r','e'] ∨ t = ['p','r','e','v','i','e','w'] := by
  unfold tagAt at h
  split_ifs at h <;> cases h <;> simp

/-- Successful matches constrain the pre-release captures: the spelling is one
of the eight the alternation lists. -/
theorem match_pre_mem {l : List Char} {f : Fields} {t : List Char}
    (h : VERSION_PERMISSIVE_match l = some f) (ht : f.pre_l = some t) :
    t = ['a'] ∨ t = ['a','l','p','h','a'] ∨ t = ['b'] ∨ t = ['b','e','t','a'] ∨
    t = ['r','c'] ∨ t = ['c'] ∨ t = ['p','r','e'] ∨ t = ['p','r','e','v','i','e','w'] := by
  obtain ⟨rest, hcore⟩ := match_some_core h
  unfold VERSION_PERMISSIVE_core at hcore
  rcases hp : parseEpoch (eatV (eatWs l)) with ⟨ep, s2⟩
  simp only [hp] at hcore
  rcases hr : parseRelease s2 with _ | ⟨rel, s3⟩ <;> simp only [hr] at hcore
  · cases hcore
  · rcases hpp : parsePre s3 with ⟨⟨pl, pn⟩, s4⟩
    simp only [hpp] at hcore
    rcases hpo : parsePost s4 with ⟨⟨pn1, pol, pn2⟩, s5⟩
    simp only [hpo] at hcore
    rcases hd : parseDev s5 with ⟨⟨dl, dn⟩, s6⟩
    simp only [hd] at hcore
    rcases hl : parseLocal s6 with ⟨loc, s7⟩
    simp only [hl] at hcore
    cases hcore
    simp only at ht
    rcases htag : tagAt (eatSep s3) with _ | ⟨tag, u2⟩ <;>
      simp only [parsePre, htag] at hpp
    · cases hpp
      cases ht
    · split at hpp <;> cases hpp <;> cases ht <;> exact tagAt_mem htag

theorem core_v_prepend {c : Char} {r : List Char} (hws : isWs c = false)
    (hv : c ≠ 'v') :
    VERSION_PERMISSIVE_core ('v' :: c :: r) = VERSION_PERMISSIVE_core (c :: r) := by
  unfold VERSION_PERMISSIVE_core
  have h1 : eatWs ('v' :: c :: r) = 'v' :: c :: r := by
    rw [show eatWs ('v' :: c :: r) = List.dropWhile isWs ('v' :: c :: r) from rfl,
      List.dropWhile_cons, if_neg (by decide)]
  have h2 : eatWs (c :: r) = c :: r := by
    rw [show eatWs (c :: r) = List.dropWhile isWs (c :: r) from rfl,
      List.dropWhile_cons, if_neg (by simp [hws])]
  simp only [h1, h2, show eatV ('v' :: c :: r) = c :: r from rfl, eatV_cons_ne hv]

/-- Prepending a single `v` in front of a version body that does not itself
start with whitespace or `v` does not change the match. -/
theorem match_v_prepend {c : Char} {r : List Char} (hws : isWs c = false)
    (hv : c ≠ 'v') :
    VERSION_PERMISSIVE_match ('v' :: c :: r) = VERSION_PERMISSIVE_match (c :: r) := by
  unfold VERSION_PERMISSIVE_match
  rw [core_v_prepend hws hv]

/-! ## Shape of `normalize_version` results -/

theorem normalize_of_match {s : String} {f : Fields}
    (h : VERSION_PERMISSIVE_match (lowerStr s).data = some f) :
    normalize_version false s = Except.ok (String.mk (componentsOf f).flatten) := by
  unfold normalize_version
  simp only [h]

theorem normalize_of_nomatch {s : String}
    (h : VERSION_PERMISSIVE_match (lowerStr s).data = none) :
    normalize_version false s = Except.error s := by
  unfold normalize_version
  simp only [h]
  rw [if_neg (by simp)]

theorem normalize_ok_inv {s u : String}
    (h : normalize_version false s = Except.ok u) :
    ∃ f, VERSION_PERMISSIVE_match (lowerStr s).data = some f ∧
      u = String.mk (componentsOf f).flatten := by
  unfold normalize_version at h
  rcases hm : VERSION_PERMISSIVE_match (lowerStr s).data with _ | f <;>
    simp only [hm] at h
  · rw [if_neg (by simp)] at h
    cases h
  · exact ⟨f, rfl, (Except.ok.inj h).symm⟩

theorem pyIsDigit_elim {l : List Char} (h : pyIsDigit l = true) :
    l ≠ [] ∧ l.all isDigit = true := by
  rw [pyIsDigit, Bool.and_eq_true] at h
  refine ⟨?_, h.2⟩
  intro he
  rw [he] at h
  exact absurd h.1 (by decide)

/-! ## The claims -/

/-- C1: normalization is idempotent and its outputs are fixed points —
whenever `normalize_version` (override unset) accepts `s` and returns `t`,
it also accepts `t` and returns `t` unchanged; in particular the canonical
example `1!2.0a1.post3.dev4+local.7`, which exercises every optional
segment, is a fixed point. -/
theorem C1_idempotent_fixed_point (s t : String)
    (h : normalize_version false s = Except.ok t) :
    normalize_version false t = Except.ok t ∧
    normalize_version false "1!2.0a1.post3.dev4+local.7" =
      Except.ok "1!2.0a1.post3.dev4+local.7" :=
  ⟨normalize_roundtrip h, by rfl⟩

theorem C1_witness :
    normalize_version false "1" = Except.ok "1" ∧
    normalize_version false "1!2.0a1.post3.dev4+local.7" =
      Except.ok "1!2.0a1.post3.dev4+local.7" :=
  C1_idempotent_fixed_point "V1" "1" (by rfl)

/-- C2: with the override unset, normalization fails exactly when the
grammar finds no match; the failure value carries the original,
non-lowercased input; and matching is anchored at both ends — a successful
match leaves at most trailing whitespace unconsumed after the grammar
body. -/
theorem C2_error_exactly_on_nomatch (s : String) :
    (VERSION_PERMISSIVE_match (lowerStr s).data = none →
      normalize_version false s = Except.error s) ∧
    (∀ e, normalize_version false s = Except.error e →
      VERSION_PERMISSIVE_match (lowerStr s).data = none ∧ e = s) ∧
    (∀ f, VERSION_PERMISSIVE_match (lowerStr s).data = some f →
      ∃ rest, VERSION_PERMISSIVE_core (lowerStr s).data = some (f, rest) ∧
        rest.all isWs = true) := by
  refine ⟨normalize_of_nomatch, ?_, ?_⟩
  · intro e he
    unfold normalize_version at he
    rcases hm : VERSION_PERMISSIVE_match (lowerStr s).data with _ | f <;>
      simp only [hm] at he
    · rw [if_neg (by simp)] at he
      exact ⟨rfl, (Except.error.inj he).symm⟩
    · cases he
  · intro f hf
    obtain ⟨rest, hcore⟩ := match_some_core hf
    refine ⟨rest, hcore, ?_⟩
    unfold VERSION_PERMISSIVE_match at hf
    rw [hcore] at hf
    by_cases hww : (rest.dropWhile isWs).isEmpty = true
    · exact all_of_dropWhile_nil (List.isEmpty_eq_true.mp hww)
    · simp [hww] at hf

theorem C2_witness :
    normalize_version false "Not-A-Version" = Except.error "Not-A-Version" :=
  (C2_error_exactly_on_nomatch "Not-A-Version").1 (by rfl)

/-- C3: with the override set, a non-matching input does not fail — the
lowercased but otherwise unmodified input is returned; in particular
`not-a-version` passes through unchanged. -/
theorem C3_override_passthrough (s : String)
    (h : VERSION_PERMISSIVE_match (lowerStr s).data = none) :
    normalize_version true s = Except.ok (lowerStr s) ∧
    normalize_version true "not-a-version" = Except.ok "not-a-version" := by
  constructor
  · unfold normalize_version
    simp only [h]
    rw [if_pos trivial]
  · rfl

theorem C3_witness :
    normalize_version true "not-a-version" = Except.ok (lowerStr "not-a-version") ∧
    normalize_version true "not-a-version" = Except.ok "not-a-version" :=
  C3_override_passthrough "not-a-version" (by rfl)

/-- C4: the pre-release spelling of a matched input is one of the eight
surface spellings; the Canonicalizer maps it through the fixed table
(alpha to a, beta to b, rc, c, pre, preview to rc, a to a, b to b) and
concatenates it directly — no separator, no leading dot — with the
zero-defaulted number in canonical (leading-zero-free) decimal form; both
`1.0alpha1` and `1.0a1` normalize to `1.0a1`, and a tag without digits gets
number 0. -/
theorem C4_pre_spelling_table (s : String) (f : Fields) (t : List Char)
    (hm : VERSION_PERMISSIVE_match (lowerStr s).data = some f)
    (hl : f.pre_l = some t) :
    (t = ['a'] ∨ t = ['a','l','p','h','a'] ∨ t = ['b'] ∨ t = ['b','e','t','a'] ∨
     t = ['r','c'] ∨ t = ['c'] ∨ t = ['p','r','e'] ∨
     t = ['p','r','e','v','i','e','w']) ∧
    preComp f = [pre_spellings t ++ canonN f.pre_n] ∧
    natStr (strInt (canonN f.pre_n)) = canonN f.pre_n ∧
    (f.pre_n = none → canonN f.pre_n = ['0']) ∧
    (pre_spellings ['a','l','p','h','a'] = ['a'] ∧
     pre_spellings ['b','e','t','a'] = ['b'] ∧
     pre_spellings ['r','c'] = ['r','c'] ∧
     pre_spellings ['c'] = ['r','c'] ∧
     pre_spellings ['p','r','e'] = ['r','c'] ∧
     pre_spellings ['p','r','e','v','i','e','w'] = ['r','c'] ∧
     pre_spellings ['a'] = ['a'] ∧
     pre_spellings ['b'] = ['b']) ∧
    normalize_version false "1.0alpha1" = Except.ok "1.0a1" ∧
    normalize_version false "1.0a1" = Except.ok "1.0a1" ∧
    normalize_version false "1.0a" = Except.ok "1.0a0" := by
  refine ⟨match_pre_mem hm hl, ?_, canonN_natStr f.pre_n, ?_,
    ⟨rfl, rfl, rfl, rfl, rfl, rfl, rfl, rfl⟩, by rfl, by rfl, by rfl⟩
  · simp [preComp, hl]
  · intro hn
    rw [hn]
    rfl

theorem C4_witness :
    normalize_version false "1.0alpha1" = Except.ok "1.0a1" ∧
    normalize_version false "1.0a1" = Except.ok "1.0a1" ∧
    normalize_version false "1.0a" = Except.ok "1.0a0" :=
  (C4_pre_spelling_table "1.0alpha1"
    { epoch := none, release := [['1'],['0']], pre_l := some ['a','l','p','h','a'],
      pre_n := some ['1'], post_n1 := none, post_l := none, post_n2 := none,
      dev_l := false, dev_n := none, localv := none }
    ['a','l','p','h','a'] (by rfl) rfl).2.2.2.2.2

/-- C5: both post-release surface forms — the dash-number shorthand
(captured in `post_n1`) and the explicit post/rev/r tag (captured in
`post_l`/`post_n2`, digits defaulting to 0) — produce the identical
canonical segment `.post` followed by the leading-zero-stripped integer;
`1.0-1`, `1.0.post1` and `1.0rev1` all normalize to `1.0.post1`. -/
theorem C5_post_surface_forms (f : Fields) :
    (∀ n1, f.post_n1 = some n1 →
      postComp f = [['.','p','o','s','t'] ++ natStr (strInt n1)]) ∧
    (∀ tg, f.post_n1 = none → f.post_l = some tg →
      postComp f = [['.','p','o','s','t'] ++ natStr (strInt (canonN f.post_n2))]) ∧
    (∀ tg, f.post_n1 = none → f.post_l = some tg → f.post_n2 = none →
      postComp f = [['.','p','o','s','t','0']]) ∧
    normalize_version false "1.0-1" = Except.ok "1.0.post1" ∧
    normalize_version false "1.0.post1" = Except.ok "1.0.post1" ∧
    normalize_version false "1.0rev1" = Except.ok "1.0.post1" := by
  refine ⟨?_, ?_, ?_, by rfl, by rfl, by rfl⟩
  · intro n1 h1
    simp [postComp, h1]
  · intro tg h1 h2
    simp [postComp, h1, h2]
  · intro tg h1 h2 h3
    simp [postComp, h1, h2, h3]
    rfl

theorem C5_witness :
    normalize_version false "1.0-1" = Except.ok "1.0.post1" ∧
    normalize_version false "1.0.post1" = Except.ok "1.0.post1" ∧
    normalize_version false "1.0rev1" = Except.ok "1.0.post1" :=
  (C5_post_surface_forms
    { epoch := none, release := [['1'],['0']], pre_l := none, pre_n := none,
      post_n1 := some ['1'], post_l := none, post_n2 := none,
      dev_l := false, dev_n := none, localv := none }).2.2.2

/-- C6: the release captures of every matched input form a nonempty list of
digit strings, and the Canonicalizer renders each component with its leading
zeros stripped, joined with dots; `1.01.0` normalizes to `1.1.0`. -/
theorem C6_release_zeros (s : String) (f : Fields)
    (hm : VERSION_PERMISSIVE_match (lowerStr s).data = some f) :
    f.release ≠ [] ∧
    releaseComp f = joinDots (f.release.map stripZeros) ∧
    normalize_version false "1.01.0" = Except.ok "1.1.0" := by
  obtain ⟨hne, hdig⟩ := match_release_digits hm
  refine ⟨hne, ?_, by rfl⟩
  unfold releaseComp
  congr 1
  apply List.map_congr_left
  intro rp hrp
  exact natStr_strInt_stripZeros (hdig rp hrp).1 (hdig rp hrp).2

theorem C6_witness :
    ([['1'],['0','1'],['0']] : List (List Char)) ≠ [] ∧
    releaseComp
      { epoch := none, release := [['1'],['0','1'],['0']], pre_l := none,
        pre_n := none, post_n1 := none, post_l := none, post_n2 := none,
        dev_l := false, dev_n := none, localv := none } =
      joinDots ([['1'],['0','1'],['0']].map stripZeros) ∧
    normalize_version false "1.01.0" = Except.ok "1.1.0" :=
  C6_release_zeros "1.01.0"
    { epoch := none, release := [['1'],['0','1'],['0']], pre_l := none,
      pre_n := none, post_n1 := none, post_l := none, post_n2 := none,
      dev_l := false, dev_n := none, localv := none } (by rfl)

/-- C7: the local version label is split on the three separators (each
unified to a dot), every all-digit segment is stripped of its leading
zeros, the segments are re-joined with dots and emitted after a literal
`+`; `1.0+ABC_123.4` normalizes to `1.0+abc.123.4`. -/
theorem C7_local_segments (f : Fields) (raw : List Char)
    (hl : f.localv = some raw) :
    localComp f = ['+' :: joinDots (processedSegs raw)] ∧
    processedSegs raw = (splitOnDot (raw.map replaceChar)).map
      (fun seg => if pyIsDigit seg = true then stripZeros seg else seg) ∧
    normalize_version false "1.0+ABC_123.4" = Except.ok "1.0+abc.123.4" := by
  refine ⟨by simp [localComp, hl], ?_, by rfl⟩
  unfold processedSegs
  apply List.map_congr_left
  intro seg hseg
  by_cases hd : pyIsDigit seg = true
  · rw [if_pos hd, if_pos hd]
    exact natStr_strInt_stripZeros (pyIsDigit_elim hd).1 (pyIsDigit_elim hd).2
  · rw [if_neg hd, if_neg hd]

theorem C7_witness :
    localComp
      { epoch := none, release := [['1'],['0']], pre_l := none, pre_n := none,
        post_n1 := none, post_l := none, post_n2 := none,
        dev_l := false, dev_n := none,
        localv := some ['a','b','c','_','1','2','3','.','4'] } =
      ['+' :: joinDots (processedSegs ['a','b','c','_','1','2','3','.','4'])] ∧
    processedSegs ['a','b','c','_','1','2','3','.','4'] =
      (splitOnDot (['a','b','c','_','1','2','3','.','4'].map replaceChar)).map
        (fun seg => if pyIsDigit seg = true then stripZeros seg else seg) ∧
    normalize_version false "1.0+ABC_123.4" = Except.ok "1.0+abc.123.4" :=
  C7_local_segments
    { epoch := none, release := [['1'],['0']], pre_l := none, pre_n := none,
      post_n1 := none, post_l := none, post_n2 := none,
      dev_l := false, dev_n := none,
      localv := some ['a','b','c','_','1','2','3','.','4'] } _ rfl

/-- C8 is false as stated: adding a leading `v` is not always harmless.
`v1.0` is accepted, but prefixing one more `v` gives `vv1.0`, which the
grammar rejects, so the two normalizations differ. -/
theorem C8_counterexample :
    normalize_version false "vv1.0" ≠ normalize_version false "v1.0" := by
  intro h
  have h1 : (Except.error "vv1.0" : Except String String) = Except.ok "1.0" := h
  cases h1

/-- C8 (amended): on accepted inputs, normalization is insensitive to
surrounding whitespace and to letter case, and one leading `v` may be added
when the lowercased input does not already begin with whitespace or `v`;
the spec example `  V1.0  ` agrees with `1.0`. -/
theorem C8_amended_insensitivity (s u : String) (w t : List Char)
    (hw : w.all isWs = true) (ht : t.all isWs = true)
    (h : normalize_version false s = Except.ok u) :
    normalize_version false (String.mk (w ++ s.data ++ t)) = Except.ok u ∧
    (∀ s2 : String, s2.data.map lowerChar = s.data.map lowerChar →
      normalize_version false s2 = Except.ok u) ∧
    (∀ c r, (lowerStr s).data = c :: r → isWs c = false → c ≠ 'v' →
      normalize_version false (String.mk ('v' :: s.data)) = Except.ok u) ∧
    normalize_version false "  V1.0  " = normalize_version false "1.0" := by
  obtain ⟨f, hm, hu⟩ := normalize_ok_inv h
  refine ⟨?_, ?_, ?_, by rfl⟩
  · have hwid : w.map lowerChar = w := by
      rw [show w.map lowerChar = w.map id from
        List.map_congr_left fun c hc =>
          lowerChar_ws ((List.all_eq_true.mp hw) c hc), List.map_id]
    have htid : t.map lowerChar = t := by
      rw [show t.map lowerChar = t.map id from
        List.map_congr_left fun c hc =>
          lowerChar_ws ((List.all_eq_true.mp ht) c hc), List.map_id]
    have hm2 : VERSION_PERMISSIVE_match
        (lowerStr (String.mk (w ++ s.data ++ t))).data = some f := by
      show VERSION_PERMISSIVE_match ((w ++ s.data ++ t).map lowerChar) = some f
      rw [List.map_append, List.map_append, hwid, htid, List.append_assoc,
        match_prepend_ws hw]
      exact match_append_ws ht hm
    rw [normalize_of_match hm2, hu]
  · intro s2 h2
    have hm3 : VERSION_PERMISSIVE_match (lowerStr s2).data = some f := by
      show VERSION_PERMISSIVE_match (s2.data.map lowerChar) = some f
      rw [h2]
      exact hm
    rw [normalize_of_match hm3, hu]
  · intro c r hcr hwsc hvc
    have hm4 : VERSION_PERMISSIVE_match
        (lowerStr (String.mk ('v' :: s.data))).data = some f := by
      show VERSION_PERMISSIVE_match (('v' :: s.data).map lowerChar) = some f
      have hmap : s.data.map lowerChar = c :: r := hcr
      rw [List.map_cons, show lowerChar 'v' = 'v' from rfl, hmap,
        match_v_prepend hwsc hvc, ← hmap]
      exact hm
    rw [normalize_of_match hm4, hu]

theorem C8_witness :
    normalize_version false (String.mk ([' '] ++ ("1.0" : String).data ++ [' '])) =
      Except.ok "1.0" ∧
    (∀ s2 : String, s2.data.map lowerChar = ("1.0" : String).data.map lowerChar →
      normalize_version false s2 = Except.ok "1.0") ∧
    (∀ c r, (lowerStr "1.0").data = c :: r → isWs c = false → c ≠ 'v' →
      normalize_version false (String.mk ('v' :: ("1.0" : String).data)) =
        Except.ok "1.0") ∧
    normalize_version false "  V1.0  " = normalize_version false "1.0" :=
  C8_amended_insensitivity "1.0" "1.0" [' '] [' '] (by decide) (by decide) (by rfl)

/-- C9: the empty string and whitespace-only strings are rejected — the
mandatory release segment needs at least one digit — so normalization
(override unset) fails, carrying the original string. -/
theorem C9_empty_ws_rejected (s : String) (h : s.data.all isWs = true) :
    normalize_version false s = Except.error s ∧
    normalize_version false "" = Except.error "" ∧
    normalize_version false "   " = Except.error "   " := by
  refine ⟨?_, by rfl, by rfl⟩
  apply normalize_of_nomatch
  have hld : (lowerStr s).data = s.data := by
    show s.data.map lowerChar = s.data
    rw [show s.data.map lowerChar = s.data.map id from
      List.map_congr_left fun c hc =>
        lowerChar_ws ((List.all_eq_true.mp h) c hc), List.map_id]
  rw [hld]
  unfold VERSION_PERMISSIVE_match
  have hnil : eatWs s.data = [] := dropWhile_all_nil h
  rw [core_of_eatWs_nil hnil]

theorem C9_witness :
    normalize_version false " " = Except.error " " ∧
    normalize_version false "" = Except.error "" ∧
    normalize_version false "   " = Except.error "   " :=
  C9_empty_ws_rejected " " (by decide)

/-- C10: every character of a successfully normalized output is a lowercase
alphanumeric or one of `!`, `.`, `+`; in particular the output has no
uppercase letter (lowering fixes every character), no whitespace, and
neither `-` nor `_`. -/
theorem C10_output_charset (s t : String)
    (h : normalize_version false s = Except.ok t) :
    ∀ c ∈ t.data,
      (isLowerAlnum c = true ∨ c = '!' ∨ c = '.' ∨ c = '+') ∧
      lowerChar c = c ∧ isWs c = false ∧ c ≠ '-' ∧ c ≠ '_' := by
  obtain ⟨f, hm, ht⟩ := normalize_ok_inv h
  obtain ⟨rest, hcore⟩ := match_some_core hm
  have hwf := WFC_canonC hcore
  have hdata : t.data = renderC (canonC f) := by
    rw [ht]
    exact componentsOf_flatten_eq f
  intro c hc
  rw [hdata] at hc
  have hch := renderC_chars (canonC f) hwf c hc
  refine ⟨hch, ?_, ?_, ?_, ?_⟩
  · rcases hch with h1 | rfl | rfl | rfl
    · exact lowerChar_alnum h1
    · rfl
    · rfl
    · rfl
  · rcases hch with h1 | rfl | rfl | rfl
    · cases hwc : isWs c with
      | false => rfl
      | true =>
          rw [ws_not_alnum hwc] at h1
          cases h1
    · rfl
    · rfl
    · rfl
  · rcases hch with h1 | rfl | rfl | rfl
    · intro he
      rw [he] at h1
      exact absurd h1 (by decide)
    · intro he
      cases he
    · intro he
      cases he
    · intro he
      cases he
  · rcases hch with h1 | rfl | rfl | rfl
    · intro he
      rw [he] at h1
      exact absurd h1 (by decide)
    · intro he
      cases he
    · intro he
      cases he
    · intro he
      cases he

theorem C10_witness :
    (isLowerAlnum 'a' = true ∨ 'a' = '!' ∨ 'a' = '.' ∨ 'a' = '+') ∧
    lowerChar 'a' = 'a' ∧ isWs 'a' = false ∧ 'a' ≠ '-' ∧ 'a' ≠ '_' :=
  C10_output_charset "1!2.0a1.post3.dev4+local.7" "1!2.0a1.post3.dev4+local.7"
    (by rfl) 'a' (by decide)

end Flot
